import Mathlib

/-!
Verification development for the ZIP container engine of this repository
(`src/adm-zip/zipFile.js` together with the header-layout constant table).

Shallow embedding conventions:
* A byte buffer is a `List Nat`; `ValidBytes` says every element is < 256.
  `Buffer.slice` clamps, so `sliceBuf` is take/drop based and total.
* Entry names, extra fields and comments are kept as raw byte sequences;
  the string decode applied by the excluded Entry component is modelled as
  the identity on bytes (the spec treats decoding as an external capability).
* The header codec (`loadFromBinary`, `toBinary`, `dataHeaderToBinary`,
  `packHeader`) is not under `src/`; those encoders and decoders are
  modelled from the spec's binary-layout table (section 6 of the spec).
* The per-entry compression engine is excluded by the spec; an `Entry`
  carries a `compressedData` field standing for the bytes the capability
  `getCompressedData` returns.
* JavaScript object tables are modelled as association lists with
  insert-or-overwrite-in-place semantics, matching property tables.
-/

namespace ZipSpec

abbrev Bytes := List Nat

/-- Unchecked indexed read of a buffer byte, `undefined`/out-of-range read as 0
for the arithmetic helpers (Node reads used by the code stay in range). -/
def byteAt (b : Bytes) (i : Nat) : Nat := b.getD i 0

/-- Little-endian 16-bit read, as `Buffer.readUInt16LE`. -/
def readUInt16LE (b : Bytes) (i : Nat) : Nat :=
  byteAt b i + 256 * byteAt b (i + 1)

/-- Little-endian 32-bit read, as `Buffer.readUInt32LE`. -/
def readUInt32LE (b : Bytes) (i : Nat) : Nat :=
  byteAt b i + 256 * byteAt b (i + 1) + 65536 * byteAt b (i + 2) +
    16777216 * byteAt b (i + 3)

/-- `Buffer.slice(st, en)`: clamping, returns the bytes in `[st, en)`. -/
def sliceBuf (b : Bytes) (st en : Nat) : Bytes :=
  (b.drop st).take (en - st)

/-- All elements of the buffer are genuine bytes. -/
def ValidBytes (b : Bytes) : Prop := ∀ x ∈ b, x < 256

instance : DecidablePred ValidBytes := fun b =>
  inferInstanceAs (Decidable (∀ x ∈ b, x < 256))

/-- Little-endian 16-bit byte pair of a value (used by the modelled encoders). -/
def w16 (v : Nat) : Bytes := [v % 256, v / 256 % 256]

/-- Little-endian 32-bit byte quadruple of a value. -/
def w32 (v : Nat) : Bytes :=
  [v % 256, v / 256 % 256, v / 65536 % 256, v / 16777216 % 256]

/-- Modelled from the spec: the End-Of-Central-Directory (`MainHeader`) record
fields — `diskEntries`, `totalEntries`, `size`, `offset`, `commentLength`. -/
structure MainHeader where
  diskEntries : Nat
  totalEntries : Nat
  size : Nat
  offset : Nat
  commentLength : Nat
deriving DecidableEq, Repr

/-- Modelled from the spec: the per-entry central-directory header fields
(spec section 3, `EntryHeader`); the name/extra/comment lengths are not
stored — the owning `Entry` keeps the actual byte arrays and the encoders
derive the lengths from them, mirroring the setters of the excluded
Entry component which keep both in sync. -/
structure EntryHeader where
  made : Nat
  version : Nat
  flags : Nat
  method : Nat
  timeDate : Nat
  crc : Nat
  compressedSize : Nat
  size : Nat
  diskNumStart : Nat
  inAttr : Nat
  attr : Nat
  offset : Nat
deriving DecidableEq, Repr

/-- One archive member. `compressedData` models the bytes produced by the
excluded compression capability (`getCompressedData`). -/
structure Entry where
  rawEntryName : Bytes
  extra : Bytes
  comment : Bytes
  header : EntryHeader
  compressedData : Bytes
deriving DecidableEq, Repr

/-- The metadata the round-trip claims compare: name, compressed size,
uncompressed size and CRC-32. -/
def metaOf (e : Entry) : Bytes × Nat × Nat × Nat :=
  (e.rawEntryName, e.header.compressedSize, e.header.size, e.header.crc)

/-- Modelled from the spec: `isDirectory` is derived from a trailing path
separator in the name (the Entry component checks the last name byte). -/
def isDirectory (e : Entry) : Bool :=
  match e.rawEntryName.getLast? with
  | some c => c == 47 || c == 92
  | none => false

/-- The container state: ordered entry list, name-keyed table, archive
comment and main header (spec section 3, Container). -/
structure ContainerState where
  entryList : List Entry
  entryTable : List (Bytes × Entry)
  comment : Bytes
  mainHeader : MainHeader
deriving DecidableEq, Repr

/-! ### Header codec (modelled from the spec's layout table) -/

/-- Modelled from the spec: decode of the fixed 22-byte end record
(`mainHeader.loadFromBinary`), field offsets per the `END*` constants. -/
def loadMainHeader (h : Bytes) : MainHeader :=
  { diskEntries := readUInt16LE h 8
    totalEntries := readUInt16LE h 10
    size := readUInt32LE h 12
    offset := readUInt32LE h 16
    commentLength := readUInt16LE h 20 }

/-- Modelled from the spec: the fixed 22 bytes of the encoded end record —
signature `PK\x05\x06`, zeroed disk numbers (offsets 4-7), then little-endian
`diskEntries` (offset 8), `totalEntries` (10), `size` (12), `offset` (16) and
`commentLength` (20). -/
def endFixed (m : MainHeader) : Bytes :=
  [80, 75, 5, 6, 0, 0, 0, 0,
   m.diskEntries % 256, m.diskEntries / 256 % 256,
   m.totalEntries % 256, m.totalEntries / 256 % 256,
   m.size % 256, m.size / 256 % 256, m.size / 65536 % 256, m.size / 16777216 % 256,
   m.offset % 256, m.offset / 256 % 256, m.offset / 65536 % 256,
   m.offset / 16777216 % 256,
   m.commentLength % 256, m.commentLength / 256 % 256]

/-- Modelled from the spec: `mainHeader.toBinary()` allocates
`ENDHDR + commentLength` zero-filled bytes and writes the fixed record;
the caller copies the archive comment in at offset `ENDHDR`. -/
def endToBinary (m : MainHeader) : Bytes :=
  endFixed m ++ List.replicate m.commentLength 0

/-- Modelled from the spec: the fixed 46 bytes of a central-directory header
(`CEN*` layout) — signature, then little-endian version-made-by (offset 4),
version-needed (6), flags (8), method (10), time/date (12), CRC-32 (16),
compressed size (20), uncompressed size (24), name length (28), extra length
(30), comment length (32), disk start (34), internal attributes (36),
external attributes (38) and local-header offset (42); the three lengths are
taken from the entry's actual byte arrays, which the Entry component's
setters keep in sync with the header fields. -/
def cenFixed (e : Entry) : Bytes :=
  [80, 75, 1, 2,
   e.header.made % 256, e.header.made / 256 % 256,
   e.header.version % 256, e.header.version / 256 % 256,
   e.header.flags % 256, e.header.flags / 256 % 256,
   e.header.method % 256, e.header.method / 256 % 256,
   e.header.timeDate % 256, e.header.timeDate / 256 % 256,
   e.header.timeDate / 65536 % 256, e.header.timeDate / 16777216 % 256,
   e.header.crc % 256, e.header.crc / 256 % 256,
   e.header.crc / 65536 % 256, e.header.crc / 16777216 % 256,
   e.header.compressedSize % 256, e.header.compressedSize / 256 % 256,
   e.header.compressedSize / 65536 % 256, e.header.compressedSize / 16777216 % 256,
   e.header.size % 256, e.header.size / 256 % 256,
   e.header.size / 65536 % 256, e.header.size / 16777216 % 256,
   e.rawEntryName.length % 256, e.rawEntryName.length / 256 % 256,
   e.extra.length % 256, e.extra.length / 256 % 256,
   e.comment.length % 256, e.comment.length / 256 % 256,
   e.header.diskNumStart % 256, e.header.diskNumStart / 256 % 256,
   e.header.inAttr % 256, e.header.inAttr / 256 % 256,
   e.header.attr % 256, e.header.attr / 256 % 256,
   e.header.attr / 65536 % 256, e.header.attr / 16777216 % 256,
   e.header.offset % 256, e.header.offset / 256 % 256,
   e.header.offset / 65536 % 256, e.header.offset / 16777216 % 256]

/-- Modelled from the spec: `entry.packHeader()` — the full central record:
fixed block, then raw name, extra field and comment bytes. -/
def packHeader (e : Entry) : Bytes :=
  cenFixed e ++ e.rawEntryName ++ e.extra ++ e.comment

/-- Modelled from the spec: `entry.header.dataHeaderToBinary()` — the fixed
30-byte local file header (`LOC*` layout). -/
def dataHeaderToBinary (e : Entry) : Bytes :=
  [80, 75, 3, 4] ++ w16 e.header.version ++ w16 e.header.flags ++
    w16 e.header.method ++ w32 e.header.timeDate ++ w32 e.header.crc ++
    w32 e.header.compressedSize ++ w32 e.header.size ++
    w16 e.rawEntryName.length ++ w16 e.extra.length

/-! ### Opening an archive (`readMainHeader` / `readEntries`) -/

/-- One probe of the backward scan of `readMainHeader`: the quick check that
the byte is `P` (0x50), then the full little-endian signature comparison
against `ENDSIG = 0x06054b50`. -/
def sigCheck (b : Bytes) (i : Nat) : Bool :=
  b.getD i 0 == 80 && readUInt32LE b i == 101010256

/-- The backward scan loop of `readMainHeader`: `count` remaining probes,
current index `i`, stepping down by one. -/
def scanDown (b : Bytes) : Nat → Nat → Option Nat
  | 0, _ => none
  | count + 1, i => if sigCheck b i then some i else scanDown b count (i - 1)

/-- The end-record locator of `readMainHeader` (zipFile.js lines 41-54):
scan from `length - ENDHDR` down to `max(0, length - ENDHDR - 0xFFFF)`;
`none` models the `INVALID_FORMAT` throw. -/
def findEnd (b : Bytes) : Option Nat :=
  if b.length < 22 then none
  else
    let i0 := b.length - 22
    let lo := i0 - 65535
    scanDown b (i0 - lo + 1) i0

/-- One entry of `readEntries` (zipFile.js lines 19-37): decode the fixed
central header slice, then take name / extra / comment slices following the
declared lengths. -/
def parseEntryAt (b : Bytes) (idx : Nat) : Entry :=
  let h := sliceBuf b idx (idx + 46)
  let fn := readUInt16LE h 28
  let ex := readUInt16LE h 30
  let cm := readUInt16LE h 32
  { rawEntryName := sliceBuf b (idx + 46) (idx + 46 + fn)
    extra := if ex ≠ 0 then sliceBuf b (idx + 46 + fn) (idx + 46 + fn + ex) else []
    comment := if cm ≠ 0 then sliceBuf b (idx + 46 + fn + ex) (idx + 46 + fn + ex + cm) else []
    header :=
      { made := readUInt16LE h 4
        version := readUInt16LE h 6
        flags := readUInt16LE h 8
        method := readUInt16LE h 10
        timeDate := readUInt32LE h 12
        crc := readUInt32LE h 16
        compressedSize := readUInt32LE h 20
        size := readUInt32LE h 24
        diskNumStart := readUInt16LE h 34
        inAttr := readUInt16LE h 36
        attr := readUInt32LE h 38
        offset := readUInt32LE h 42 }
    compressedData := [] }

/-- The cursor advance of `readEntries`: `entryHeaderSize` is the fixed size
plus the three declared lengths (spec section 3). -/
def entryHeaderSizeAt (b : Bytes) (idx : Nat) : Nat :=
  let h := sliceBuf b idx (idx + 46)
  46 + readUInt16LE h 28 + readUInt16LE h 30 + readUInt16LE h 32

/-- The loop of `readEntries`: exactly `n` consecutive central records
starting at `idx`. -/
def parseEntries (b : Bytes) : Nat → Nat → List Entry
  | 0, _ => []
  | n + 1, idx => parseEntryAt b idx :: parseEntries b n (idx + entryHeaderSizeAt b idx)

/-- Property-table write `entryTable[name] = entry`: overwrite in place when
the key exists, append otherwise. -/
def tableSet (t : List (Bytes × Entry)) (k : Bytes) (v : Entry) : List (Bytes × Entry) :=
  if t.any (fun p => p.1 == k) then
    t.map (fun p => if p.1 == k then (k, v) else p)
  else t ++ [(k, v)]

/-- Property-table read `entryTable[name]`. -/
def lookupTable (t : List (Bytes × Entry)) (k : Bytes) : Option Entry :=
  (t.find? (fun p => p.1 == k)).map (fun p => p.2)

/-- Property-table `delete entryTable[name]`. -/
def eraseKey (t : List (Bytes × Entry)) (k : Bytes) : List (Bytes × Entry) :=
  t.filter (fun p => !(p.1 == k))

/-- The table built by the `readEntries` loop. -/
def tableOf (es : List Entry) : List (Bytes × Entry) :=
  es.foldl (fun t e => tableSet t e.rawEntryName e) []

/-- Opening an archive buffer (the constructor of zipFile.js: `readMainHeader`
followed by `readEntries`). `Except.error ()` models the only explicit error
of the core, `INVALID_FORMAT`. -/
def openZip (input : Bytes) : Except Unit ContainerState :=
  match findEnd input with
  | none => .error ()
  | some endOffset =>
    let mh := loadMainHeader (sliceBuf input endOffset (endOffset + 22))
    let cm := if mh.commentLength ≠ 0 then sliceBuf input (endOffset + 22) input.length else []
    let es := parseEntries input mh.diskEntries mh.offset
    .ok { entryList := es, entryTable := tableOf es, comment := cm, mainHeader := mh }

/-! ### Entry table operations (zipFile.js lines 90-146) -/

/-- `getEntry(entryName)`: exact-key lookup, `none` models the `null`. -/
def getEntry (s : ContainerState) (name : Bytes) : Option Entry :=
  lookupTable s.entryTable name

/-- `setEntry(entry)` (zipFile.js lines 99-103): push, (re)bind the table
key, update `totalEntries`. -/
def setEntry (s : ContainerState) (e : Entry) : ContainerState :=
  let l := s.entryList ++ [e]
  { s with
      entryList := l
      entryTable := tableSet s.entryTable e.rawEntryName e
      mainHeader := { s.mainHeader with totalEntries := l.length } }

/-- `getEntryChildren(entry)` (zipFile.js lines 132-146): for a directory,
every entry whose name has the directory's name as a literal byte-sequence
strict-or-equal leading segment (`substr(0, len) === name`), in list order;
else the empty sequence. -/
def getEntryChildren (s : ContainerState) (e : Entry) : List Entry :=
  if isDirectory e then
    s.entryList.filter
      (fun z => z.rawEntryName.take e.rawEntryName.length == e.rawEntryName)
  else []

/-- Index of the first match of `e`, `-1` when absent (the recursion of
`Array.prototype.indexOf`). -/
def idxFrom (e : Entry) : List Entry → Int
  | [] => -1
  | a :: l =>
    if a == e then 0
    else
      let r := idxFrom e l
      if r < 0 then -1 else r + 1

/-- `Array.prototype.indexOf` over the entry list: first value match,
`-1` when absent; the `undefined` argument (absent table key) never matches
an entry and also yields `-1`. -/
def jsIndexOf (l : List Entry) (x : Option Entry) : Int :=
  match x with
  | none => -1
  | some e => idxFrom e l

/-- `Array.prototype.splice(i, 1)`: negative start counts from the end
(clamped to 0), start past the end removes nothing. -/
def spliceOne (l : List Entry) (i : Int) : List Entry :=
  let st : Nat := if i < 0 then ((l.length : Int) + i).toNat else min i.toNat l.length
  l.take st ++ l.drop (st + 1)

/-- The unconditional tail of `deleteEntry` (zipFile.js lines 121-123):
splice at `indexOf(entry)`, delete the table key, resync `totalEntries`. -/
def deleteFinish (s : ContainerState) (entry : Option Entry) (name : Bytes) : ContainerState :=
  let newList := spliceOne s.entryList (jsIndexOf s.entryList entry)
  { entryList := newList
    entryTable := eraseKey s.entryTable name
    comment := s.comment
    mainHeader := { s.mainHeader with totalEntries := newList.length } }

/-- `deleteEntry(entryName)` (zipFile.js lines 111-124) with an explicit
recursion budget: when the looked-up entry is a directory, first delete each
child of the snapshot children list whose name differs, then splice/erase.
The budget only limits the recursive descent; every call still performs the
final splice/erase/resync, exactly as the code does. -/
def deleteFuel : Nat → ContainerState → Bytes → ContainerState
  | 0, s, name => deleteFinish s (lookupTable s.entryTable name) name
  | fuel + 1, s, name =>
    let entry := lookupTable s.entryTable name
    let s1 :=
      match entry with
      | some e =>
        if isDirectory e then
          (getEntryChildren s e).foldl
            (fun acc child =>
              if child.rawEntryName == name then acc
              else deleteFuel fuel acc child.rawEntryName) s
        else s
      | none => s
    deleteFinish s1 entry name

/-- Longest entry name currently in the list; recursive `deleteEntry` calls
always move to a strictly longer name drawn from the (never-growing) list,
so `maxNameLen + 1` budget is never exhausted on a reachable execution. -/
def maxNameLen (s : ContainerState) : Nat :=
  (s.entryList.map (fun e => e.rawEntryName.length)).foldr max 0

/-- `deleteEntry(entryName)` with the always-sufficient budget. -/
def deleteEntry (s : ContainerState) (name : Bytes) : ContainerState :=
  deleteFuel (maxNameLen s + 1) s name

/-! ### Serialization (zipFile.js lines 153-315) -/

/-- ASCII lower-casing of one name byte (`String.prototype.toLowerCase`
restricted to the byte-level model of names). -/
def lowerByte (c : Nat) : Nat := if 65 ≤ c ∧ c ≤ 90 then c + 32 else c

/-- The case-insensitive sort key of an entry. -/
def lowerName (e : Entry) : Bytes := e.rawEntryName.map lowerByte

/-- Strict lexicographic order on byte sequences, the `<` of JS strings
specialized to the byte model. -/
def lexLt : Bytes → Bytes → Bool
  | _, [] => false
  | [], _ :: _ => true
  | a :: as, b :: bs => if a < b then true else if b < a then false else lexLt as bs

/-- The ascending comparator of `compressToBuffer` (zipFile.js lines 155-165)
read as a should-come-no-later relation: `a` precedes `b` unless `b`'s
lowered name is strictly smaller. Any stable sort by the JS comparator
produces exactly the `insertionSort` by this relation. -/
def nameLe (a b : Entry) : Prop := ¬ lexLt (lowerName b) (lowerName a)

/-- The descending comparator of `toAsyncBuffer` (zipFile.js lines 229-239). -/
def nameGe (a b : Entry) : Prop := ¬ lexLt (lowerName a) (lowerName b)

instance : DecidableRel nameLe := fun a b =>
  inferInstanceAs (Decidable (¬ lexLt (lowerName b) (lowerName a)))

instance : DecidableRel nameGe := fun a b =>
  inferInstanceAs (Decidable (¬ lexLt (lowerName a) (lowerName b)))

/-- The `entryList.sort(...)` of the synchronous path: in place,
case-insensitive ascending, only when more than one entry. -/
def sortedForSync (l : List Entry) : List Entry :=
  if l.length > 1 then List.insertionSort nameLe l else l

/-- The `entryList.sort(...)` of the asynchronous path: descending. -/
def sortedForAsync (l : List Entry) : List Entry :=
  if l.length > 1 then List.insertionSort nameGe l else l

/-- The loop state of the serialization paths: running data offset, ordered
data blocks, ordered central headers, accumulated central-directory size and
total size, and the entries with their mutated `header.offset`. -/
structure BuildAcc where
  dindex : Nat
  dataBlock : List Bytes
  entryHeaders : List Bytes
  size : Nat
  totalSize : Nat
  entries : List Entry
deriving DecidableEq, Repr

/-- The empty accumulator (`totalSize = 0`, `dindex = 0`, empty lists). -/
def accInit : BuildAcc := ⟨0, [], [], 0, 0, []⟩

/-- The post-header block of the synchronous path (zipFile.js lines 182-186):
raw name bytes followed by the extra-field text (byte-identity decode). -/
def postHeaderSync (e : Entry) : Bytes := e.rawEntryName ++ e.extra

/-- The post-header block of the asynchronous path (zipFile.js lines 254,
262-267): the display name `entryName + extra.toString()` materialized as
bytes (byte-identity decode). -/
def postHeaderAsync (e : Entry) : Bytes := e.rawEntryName ++ e.extra

/-- One entry of the `entryList.forEach` of `compressToBuffer`
(zipFile.js lines 176-200): fetch compressed data, set the entry's local
offset, build [local header][post header][data], pack the central header,
accumulate sizes. -/
def buildStep (acc : BuildAcc) (entry : Entry) : BuildAcc :=
  let compressedData := entry.compressedData
  let entry := { entry with header := { entry.header with offset := acc.dindex } }
  let dataHeader := dataHeaderToBinary entry
  let postHeader := postHeaderSync entry
  let dataLength := dataHeader.length + postHeader.length + compressedData.length
  let entryHeader := packHeader entry
  { dindex := acc.dindex + dataLength
    dataBlock := acc.dataBlock ++ [dataHeader, postHeader, compressedData]
    entryHeaders := acc.entryHeaders ++ [entryHeader]
    size := acc.size + entryHeader.length
    totalSize := acc.totalSize + dataLength + entryHeader.length
    entries := acc.entries ++ [entry] }

/-- One completion step of the asynchronous chain (zipFile.js lines 256-279):
same construction, with the post header built from the display name. -/
def asyncStep (acc : BuildAcc) (entry : Entry) : BuildAcc :=
  let compressedData := entry.compressedData
  let entry := { entry with header := { entry.header with offset := acc.dindex } }
  let dataHeader := dataHeaderToBinary entry
  let postHeader := postHeaderAsync entry
  let dataLength := dataHeader.length + postHeader.length + compressedData.length
  let entryHeader := packHeader entry
  { dindex := acc.dindex + dataLength
    dataBlock := acc.dataBlock ++ [dataHeader, postHeader, compressedData]
    entryHeaders := acc.entryHeaders ++ [entryHeader]
    size := acc.size + entryHeader.length
    totalSize := acc.totalSize + dataLength + entryHeader.length
    entries := acc.entries ++ [entry] }

/-- `src.copy(target, off)`: copy into a fixed-size buffer, truncating at the
target's end, leaving the rest of the target untouched. -/
def copyInto (t : Bytes) (off : Nat) (src : Bytes) : Bytes :=
  let n := min src.length (t.length - off)
  t.take off ++ src.take n ++ t.drop (off + n)

/-- The two write loops of the serializers: copy each block at the running
offset. -/
def writeSeq (start : Bytes × Nat) (blocks : List Bytes) : Bytes × Nat :=
  blocks.foldl (fun p c => (copyInto p.1 p.2 c, p.2 + c.length)) start

/-- The finalize computation shared by both serializers (zipFile.js lines
202-224 and 286-308): fix `mainHeader.offset`, allocate the output, write
data blocks, central headers, then the end record with the comment copied in
at offset `ENDHDR`. Returns the final main header and the output buffer. -/
def finalizeBuild (acc : BuildAcc) (mh : MainHeader) (comment : Bytes) :
    MainHeader × Bytes :=
  let totalSize := acc.totalSize + (22 + mh.commentLength)
  let mh := { mh with size := acc.size, offset := acc.dindex }
  let out0 := List.replicate totalSize 0
  let p1 := writeSeq (out0, 0) acc.dataBlock
  let p2 := writeSeq p1 acc.entryHeaders
  let mhBin := copyInto (endToBinary mh) 22 comment
  (mh, copyInto p2.1 p2.2 mhBin)

/-- `compressToBuffer()` (zipFile.js lines 153-225): sort ascending when more
than one entry, fold the per-entry construction in list order, finalize.
The returned state carries the in-place-sorted list with mutated offsets and
the rewritten main header. -/
def compressToBuffer (s : ContainerState) : ContainerState × Bytes :=
  let sorted := sortedForSync s.entryList
  let acc := sorted.foldl buildStep accInit
  let r := finalizeBuild acc s.mainHeader s.comment
  ({ s with entryList := acc.entries, mainHeader := r.1 }, r.2)

/-- `toAsyncBuffer(...)` (zipFile.js lines 227-315): sort descending, then
the driver pops entries off the tail of the working list one at a time, so
the construction folds over the reverse of the sorted list; when the list is
exhausted it finalizes and calls the success callback once — modelled by
`some buffer`. If the list is empty from the start the chain never runs and
no callback is ever invoked (`none`); the pops leave the container's entry
list empty. -/
def toAsyncBuffer (s : ContainerState) : ContainerState × Option Bytes :=
  let sorted := sortedForAsync s.entryList
  if sorted.isEmpty then
    ({ s with entryList := sorted,
              mainHeader := { s.mainHeader with size := 0, offset := 0 } }, none)
  else
    let acc := sorted.reverse.foldl asyncStep accInit
    let r := finalizeBuild acc s.mainHeader s.comment
    ({ s with entryList := [], mainHeader := r.1 }, some r.2)

/-- The accumulator the synchronous serializer reaches after its per-entry
loop (ascending iteration after the sort). -/
def syncAcc (s : ContainerState) : BuildAcc :=
  (sortedForSync s.entryList).foldl buildStep accInit

/-- The accumulator the asynchronous chain reaches after popping the whole
working list (tail-first iteration over the descending-sorted list). -/
def asyncAcc (s : ContainerState) : BuildAcc :=
  (sortedForAsync s.entryList).reverse.foldl asyncStep accInit

/-- The main header as rewritten by the synchronous serializer: central
directory size and offset recomputed, the rest kept. -/
def rebuiltHeader (s : ContainerState) : MainHeader :=
  { s.mainHeader with size := (syncAcc s).size, offset := (syncAcc s).dindex }

/-! ### Specification-side predicates and concrete instances -/

/-- The legal scan window of the end-record locator: offsets `i` with
`i ≤ length - ENDHDR` and `i ≥ max(0, length - ENDHDR - 0xFFFF)`, stated
without truncated subtraction. -/
def inWindow (b : Bytes) (i : Nat) : Prop :=
  i + 22 ≤ b.length ∧ b.length ≤ i + 22 + 65535

/-- The End-Of-Central-Directory signature `0x06054b50` read little-endian
at offset `i`. -/
def SigAt (b : Bytes) (i : Nat) : Prop :=
  readUInt32LE b i = 101010256

/-- Field-width sanity of an entry: every encoded field fits its record
slot. Parsing any buffer of genuine bytes only produces such entries. -/
def EntryWF (e : Entry) : Prop :=
  e.header.made < 65536 ∧ e.header.version < 65536 ∧ e.header.flags < 65536 ∧
  e.header.method < 65536 ∧ e.header.timeDate < 4294967296 ∧
  e.header.crc < 4294967296 ∧ e.header.compressedSize < 4294967296 ∧
  e.header.size < 4294967296 ∧ e.header.diskNumStart < 65536 ∧
  e.header.inAttr < 65536 ∧ e.header.attr < 4294967296 ∧
  e.rawEntryName.length < 65536 ∧ e.extra.length < 65536 ∧
  e.comment.length < 65536

/-- The raw names of a list of entries. -/
def namesOf (l : List Entry) : List Bytes :=
  l.map (fun e => e.rawEntryName)

/-- The literal leading-segment test the deletion logic uses:
`n.substr(0, dname.length) === dname`. -/
def startsWith (dname n : Bytes) : Bool :=
  n.take dname.length == dname

/-- The observable entry metadata of an open result (empty on failure). -/
def entryMetas (r : Except Unit ContainerState) : List (Bytes × Nat × Nat × Nat) :=
  match r with
  | .ok s => s.entryList.map metaOf
  | .error _ => []

/-- Open, serialize synchronously, and return the rebuilt buffer. -/
def roundOnce (b : Bytes) : Bytes :=
  match openZip b with
  | .ok s => (compressToBuffer s).2
  | .error _ => []

/-- An all-zero entry header for concrete instances. -/
def zeroHeader : EntryHeader := ⟨0, 0, 0, 0, 0, 0, 0, 0, 0, 0, 0, 0⟩

/-- A minimal stored entry with the given raw name. -/
def mkEntry (name : Bytes) : Entry :=
  { rawEntryName := name, extra := [], comment := [], header := zeroHeader,
    compressedData := [] }

/-- Concrete single-entry archive member (name `a`, stored, CRC 7). -/
def witEntry : Entry :=
  { rawEntryName := [97], extra := [], comment := [],
    header := ⟨20, 20, 0, 0, 0, 7, 5, 5, 0, 0, 0, 0⟩, compressedData := [] }

/-- Comment-free end record of the single-entry archive. -/
def witEnd : MainHeader := ⟨1, 1, 47, 0, 0⟩

/-- A well-formed, comment-free single-entry archive buffer. -/
def witBuf : Bytes := packHeader witEntry ++ endFixed witEnd

/-- The container state `openZip witBuf` produces. -/
def witState : ContainerState :=
  { entryList := [witEntry], entryTable := [([97], witEntry)], comment := [],
    mainHeader := witEnd }

/-- End record declaring a 30-byte comment while only 10 bytes follow. -/
def padEnd : MainHeader := ⟨1, 1, 47, 0, 30⟩

/-- A single-entry archive whose declared comment length (30) exceeds the 10
actual trailing bytes, which start with a spurious end-record signature. -/
def padBuf : Bytes :=
  packHeader witEntry ++ endFixed padEnd ++ [80, 75, 5, 6, 0, 0, 0, 0, 0, 0]

/-- Directory `a/`. -/
def dirA : Entry := mkEntry [97, 47]

/-- Nested directory `a/b/`. -/
def dirAB : Entry := mkEntry [97, 47, 98, 47]

/-- Nested file `a/b/c`. -/
def fileABC : Entry := mkEntry [97, 47, 98, 47, 99]

/-- Unrelated file `z`. -/
def fileZ : Entry := mkEntry [122]

/-- File `a/x`, a direct child of `a/`. -/
def fileAX : Entry := mkEntry [97, 47, 120]

/-- Container with a nested directory subtree `a/`, `a/b/`, `a/b/c` and an
unrelated trailing entry `z`. -/
def nestedState : ContainerState :=
  { entryList := [dirA, dirAB, fileABC, fileZ]
    entryTable := tableOf [dirA, dirAB, fileABC, fileZ]
    comment := []
    mainHeader := ⟨4, 4, 0, 0, 0⟩ }

/-- Container with a flat directory `a/`, its file child `a/x` and an
unrelated entry `z`. -/
def flatState : ContainerState :=
  { entryList := [dirA, fileAX, fileZ]
    entryTable := tableOf [dirA, fileAX, fileZ]
    comment := []
    mainHeader := ⟨3, 3, 0, 0, 0⟩ }

/-- Entry `a` with distinguishable CRC. -/
def entryA : Entry :=
  { rawEntryName := [97], extra := [], comment := [],
    header := ⟨0, 0, 0, 0, 0, 11, 0, 0, 0, 0, 0, 0⟩, compressedData := [] }

/-- Entry `b` with distinguishable CRC. -/
def entryB : Entry :=
  { rawEntryName := [98], extra := [], comment := [],
    header := ⟨0, 0, 0, 0, 0, 22, 0, 0, 0, 0, 0, 0⟩, compressedData := [] }

/-- Two-entry container listed in descending name order (`b` before `a`). -/
def twoState : ContainerState :=
  { entryList := [entryB, entryA]
    entryTable := tableOf [entryB, entryA]
    comment := []
    mainHeader := ⟨2, 2, 0, 0, 0⟩ }

/-- A container with no entries. -/
def emptyState : ContainerState :=
  { entryList := [], entryTable := [], comment := [], mainHeader := ⟨0, 0, 0, 0, 0⟩ }

/-- A duplicate-name replacement for `entryA` with a different CRC. -/
def entryA2 : Entry :=
  { rawEntryName := [97], extra := [], comment := [],
    header := ⟨0, 0, 0, 0, 0, 33, 0, 0, 0, 0, 0, 0⟩, compressedData := [] }

/-! ### Helper lemmas: table operations -/

theorem lookupTable_isSome_any {t : List (Bytes × Entry)} {k : Bytes} {v : Entry}
    (h : lookupTable t k = some v) : t.any (fun p => p.1 == k) = true := by
  unfold lookupTable at h
  rcases hf : t.find? (fun p => p.1 == k) with _ | p
  · rw [hf] at h; cases h
  · have hp := List.find?_some hf
    exact List.any_eq_true.mpr ⟨p, List.mem_of_find?_eq_some hf, hp⟩

theorem tableSet_length_of_mem {t : List (Bytes × Entry)} {k : Bytes} {v0 : Entry}
    (h : lookupTable t k = some v0) (v : Entry) :
    (tableSet t k v).length = t.length := by
  unfold tableSet
  rw [lookupTable_isSome_any h, if_pos rfl, List.length_map]

theorem lookupTable_tableSet_self (t : List (Bytes × Entry)) (k : Bytes) (v : Entry) :
    lookupTable (tableSet t k v) k = some v := by
  induction t with
  | nil => simp [tableSet, lookupTable]
  | cons a t ih =>
    by_cases hk : (a.1 == k) = true
    · have h1 : tableSet (a :: t) k v =
          (k, v) :: t.map (fun p => if p.1 == k then (k, v) else p) := by
        simp only [tableSet, List.any_cons, hk, Bool.true_or, if_true, List.map_cons,
          if_pos hk]
      rw [h1]
      simp [lookupTable]
    · have hkf : (a.1 == k) = false := by simpa using hk
      cases hany : t.any (fun p => p.1 == k) with
      | true =>
        have h1 : tableSet (a :: t) k v =
            a :: t.map (fun p => if p.1 == k then (k, v) else p) := by
          simp only [tableSet, List.any_cons, hkf, Bool.false_or, hany, if_true,
            List.map_cons, Bool.false_eq_true, if_false]
        have h2 : tableSet t k v = t.map (fun p => if p.1 == k then (k, v) else p) := by
          simp only [tableSet, hany, if_true]
        rw [h1]
        rw [h2] at ih
        simpa [lookupTable, hkf] using ih
      | false =>
        have h1 : tableSet (a :: t) k v = a :: (t ++ [(k, v)]) := by
          simp only [tableSet, List.any_cons, hkf, hany, Bool.false_or,
            Bool.false_eq_true, if_false, List.cons_append]
        have h2 : tableSet t k v = t ++ [(k, v)] := by
          simp only [tableSet, hany, Bool.false_eq_true, if_false]
        rw [h1]
        rw [h2] at ih
        simpa [lookupTable, hkf] using ih

/-! ### Helper lemmas: splice semantics -/

theorem spliceOne_neg_one {l : List Entry} (h : l ≠ []) :
    spliceOne l (-1) = l.dropLast := by
  have hl : 0 < l.length := List.length_pos.mpr h
  unfold spliceOne
  have h1 : ((-1 : Int) < 0) = True := by simp
  simp only [h1, if_true]
  have h2 : ((l.length : Int) + (-1)).toNat = l.length - 1 := by omega
  rw [h2]
  have h3 : l.length - 1 + 1 = l.length := by omega
  rw [h3, List.drop_length, List.append_nil, List.dropLast_eq_take]

/-! ### Claim theorems: C6, C7, C10 -/

/-- Claim C6: after every mutation (`setEntry` or `deleteEntry`),
`mainHeader.totalEntries` equals the length of `entryList`. -/
theorem setEntry_deleteEntry_totalEntries_sync :
    (∀ s e, (setEntry s e).mainHeader.totalEntries = (setEntry s e).entryList.length) ∧
    (∀ s n, (deleteEntry s n).mainHeader.totalEntries = (deleteEntry s n).entryList.length) := by
  constructor
  · intro s e; rfl
  · intro s n; rfl

/-- Claim C7: `setEntry` with a duplicate name rebinds the table key to the
new entry and appends to the list while the old entry stays, so the list
grows strictly past the number of table keys. -/
theorem setEntry_duplicate_diverges (s : ContainerState) (e old : Entry) (n : Bytes)
    (hn : e.rawEntryName = n)
    (hold : lookupTable s.entryTable n = some old)
    (holdl : old ∈ s.entryList)
    (hbal : s.entryTable.length ≤ s.entryList.length) :
    (setEntry s e).entryList = s.entryList ++ [e] ∧
    old ∈ (setEntry s e).entryList ∧
    lookupTable (setEntry s e).entryTable n = some e ∧
    (setEntry s e).entryTable.length = s.entryTable.length ∧
    (setEntry s e).entryTable.length < (setEntry s e).entryList.length := by
  refine ⟨rfl, ?_, ?_, ?_, ?_⟩
  · exact List.mem_append_left _ holdl
  · show lookupTable (tableSet s.entryTable e.rawEntryName e) n = some e
    rw [hn]; exact lookupTable_tableSet_self _ _ _
  · show (tableSet s.entryTable e.rawEntryName e).length = s.entryTable.length
    rw [hn]; exact tableSet_length_of_mem hold e
  · show (tableSet s.entryTable e.rawEntryName e).length < (s.entryList ++ [e]).length
    rw [hn, tableSet_length_of_mem hold e, List.length_append]
    simpa using Nat.lt_succ_of_le hbal

/-- Witness for C7 at a concrete duplicate insertion. -/
theorem setEntry_duplicate_diverges_witness :
    (setEntry twoState entryA2).entryList = twoState.entryList ++ [entryA2] ∧
    entryA ∈ (setEntry twoState entryA2).entryList ∧
    lookupTable (setEntry twoState entryA2).entryTable [97] = some entryA2 ∧
    (setEntry twoState entryA2).entryTable.length = twoState.entryTable.length ∧
    (setEntry twoState entryA2).entryTable.length < (setEntry twoState entryA2).entryList.length :=
  setEntry_duplicate_diverges twoState entryA2 entryA [97] (by decide) (by decide)
    (by decide) (by decide)

/-- Claim C10: `deleteEntry` on an absent name removes the last element of a
non-empty list (splice at the `-1` from `indexOf`) and resyncs
`totalEntries`; the table only loses the (absent) key. -/
theorem deleteEntry_absent_drops_last (s : ContainerState) (n : Bytes)
    (habs : lookupTable s.entryTable n = none)
    (hne : s.entryList ≠ []) :
    (deleteEntry s n).entryList = s.entryList.dropLast ∧
    (deleteEntry s n).mainHeader.totalEntries = s.entryList.length - 1 ∧
    (deleteEntry s n).entryTable = eraseKey s.entryTable n := by
  have hstep : deleteEntry s n = deleteFinish s none n := by
    unfold deleteEntry deleteFuel
    rw [habs]
  have hdrop : spliceOne s.entryList (jsIndexOf s.entryList none) = s.entryList.dropLast := by
    show spliceOne s.entryList (-1) = s.entryList.dropLast
    exact spliceOne_neg_one hne
  refine ⟨?_, ?_, ?_⟩
  · rw [hstep]; show spliceOne s.entryList (jsIndexOf s.entryList none) = _; exact hdrop
  · rw [hstep]
    show (spliceOne s.entryList (jsIndexOf s.entryList none)).length = _
    rw [hdrop, List.length_dropLast]
  · rw [hstep]; rfl

/-- Witness for C10: deleting the absent name `c` from the two-entry
container removes the unrelated last entry. -/
theorem deleteEntry_absent_drops_last_witness :
    (deleteEntry twoState [99]).entryList = twoState.entryList.dropLast ∧
    (deleteEntry twoState [99]).mainHeader.totalEntries = twoState.entryList.length - 1 ∧
    (deleteEntry twoState [99]).entryTable = eraseKey twoState.entryTable [99] :=
  deleteEntry_absent_drops_last twoState [99] (by decide) (by decide)

/-! ### Helper lemmas: the backward signature scan -/

theorem byteAt_lt_256 {b : Bytes} (hv : ValidBytes b) (i : Nat) : byteAt b i < 256 := by
  unfold byteAt
  rcases Nat.lt_or_ge i b.length with h | h
  · rw [List.getD_eq_getElem b 0 h]
    exact hv _ (List.getElem_mem h)
  · rw [List.getD_eq_default b 0 h]
    omega

theorem sigCheck_iff_SigAt {b : Bytes} (hv : ValidBytes b) (i : Nat) :
    sigCheck b i = true ↔ SigAt b i := by
  unfold sigCheck SigAt
  constructor
  · intro h
    have h2 := (Bool.and_eq_true _ _).mp h
    exact eq_of_beq h2.2
  · intro h
    have h0 : byteAt b i < 256 := byteAt_lt_256 hv i
    have h1 : byteAt b (i + 1) < 256 := byteAt_lt_256 hv (i + 1)
    have h2 : byteAt b (i + 2) < 256 := byteAt_lt_256 hv (i + 2)
    have h3 : byteAt b (i + 3) < 256 := byteAt_lt_256 hv (i + 3)
    have hb : byteAt b i = 80 := by
      unfold readUInt32LE at h
      omega
    apply (Bool.and_eq_true _ _).mpr
    constructor
    · unfold byteAt at hb
      simp only [beq_iff_eq]
      simpa [List.getD] using hb
    · simpa using h

theorem scanDown_eq_none (b : Bytes) :
    ∀ c i, scanDown b c i = none ↔ ∀ j, j ≤ i → i < j + c → sigCheck b j = false := by
  intro c
  induction c with
  | zero =>
    intro i
    constructor
    · intro _ j hj hlt; omega
    · intro _; rfl
  | succ c ih =>
    intro i
    unfold scanDown
    cases hs : sigCheck b i with
    | true =>
      simp only [if_true, hs]
      constructor
      · intro h; cases h
      · intro h
        have := h i (Nat.le_refl i) (by omega)
        rw [hs] at this; cases this
    | false =>
      simp only [Bool.false_eq_true, if_false, hs]
      rw [ih (i - 1)]
      constructor
      · intro h j hj hlt
        rcases Nat.eq_or_lt_of_le hj with rfl | hlt2
        · exact hs
        · exact h j (by omega) (by omega)
      · intro h j hj hlt
        rcases Nat.eq_zero_or_pos i with rfl | hpos
        · have hj0 : j = 0 := by omega
          subst hj0
          exact h 0 (Nat.zero_le 0) (by omega)
        · exact h j (by omega) (by omega)

theorem scanDown_eq_some (b : Bytes) :
    ∀ c i k, scanDown b c i = some k →
      sigCheck b k = true ∧ k ≤ i ∧ i < k + c ∧
        ∀ j, k < j → j ≤ i → sigCheck b j = false := by
  intro c
  induction c with
  | zero => intro i k h; cases h
  | succ c ih =>
    intro i k h
    unfold scanDown at h
    cases hs : sigCheck b i with
    | true =>
      rw [hs] at h
      simp only [if_true, Option.some.injEq] at h
      subst h
      exact ⟨hs, Nat.le_refl _, by omega, fun j h1 h2 => by omega⟩
    | false =>
      rw [hs] at h
      simp only [Bool.false_eq_true, if_false] at h
      obtain ⟨hk, hle, hlt, hrest⟩ := ih (i - 1) k h
      rcases Nat.eq_zero_or_pos i with rfl | hpos
      · have : k = 0 := by omega
        subst this
        rw [hk] at hs; cases hs
      · refine ⟨hk, by omega, by omega, ?_⟩
        intro j h1 h2
        rcases Nat.eq_or_lt_of_le h2 with rfl | h3
        · exact hs
        · exact hrest j h1 (by omega)

theorem findEnd_eq_none_iff {b : Bytes} (hv : ValidBytes b) :
    findEnd b = none ↔ ∀ i, inWindow b i → ¬ SigAt b i := by
  unfold findEnd
  by_cases hL : b.length < 22
  · rw [if_pos hL]
    constructor
    · intro _ i hi _
      obtain ⟨hi1, _⟩ := hi
      omega
    · intro _; rfl
  · rw [if_neg hL]
    push_neg at hL
    show scanDown b (b.length - 22 - (b.length - 22 - 65535) + 1) (b.length - 22) = none ↔ _
    rw [scanDown_eq_none]
    constructor
    · intro h i hi hsig
      obtain ⟨hi1, hi2⟩ := hi
      have h1 : i ≤ b.length - 22 := by omega
      have h2 : b.length - 22 < i + (b.length - 22 - (b.length - 22 - 65535) + 1) := by omega
      have h3 := h i h1 h2
      rw [(sigCheck_iff_SigAt hv i).mpr hsig] at h3
      cases h3
    · intro h j hj hlt
      by_contra hc
      rw [Bool.not_eq_false] at hc
      have hsig := (sigCheck_iff_SigAt hv j).mp hc
      have hw : inWindow b j := ⟨by omega, by omega⟩
      exact h j hw hsig

theorem findEnd_eq_some_max {b : Bytes} (hv : ValidBytes b) {k : Nat}
    (h : findEnd b = some k) :
    SigAt b k ∧ inWindow b k ∧ ∀ j, inWindow b j → SigAt b j → j ≤ k := by
  unfold findEnd at h
  by_cases hL : b.length < 22
  · rw [if_pos hL] at h; cases h
  · rw [if_neg hL] at h
    push_neg at hL
    have h2 : scanDown b (b.length - 22 - (b.length - 22 - 65535) + 1) (b.length - 22) =
        some k := h
    obtain ⟨hk, hle, hlt, hrest⟩ := scanDown_eq_some b _ _ _ h2
    have hw : inWindow b k := ⟨by omega, by omega⟩
    refine ⟨(sigCheck_iff_SigAt hv k).mp hk, hw, ?_⟩
    intro j hj hsig
    obtain ⟨hj1, hj2⟩ := hj
    by_contra hc
    push_neg at hc
    have hj3 : j ≤ b.length - 22 := by omega
    have h4 := hrest j hc hj3
    rw [(sigCheck_iff_SigAt hv j).mpr hsig] at h4
    cases h4

theorem openZip_error_iff_findEnd_none (b : Bytes) :
    openZip b = .error () ↔ findEnd b = none := by
  unfold openZip
  cases findEnd b with
  | none => simp
  | some k => simp

/-- Claim C2: opening fails with `INVALID_FORMAT` exactly when no
end-record signature occurs in the legal window, and a successful scan
selects the right-most in-window signature offset. -/
theorem openZip_invalid_format_iff_no_sig (b : Bytes) (hv : ValidBytes b) :
    ((openZip b = .error ()) ↔ ∀ i, inWindow b i → ¬ SigAt b i) ∧
    (∀ k, findEnd b = some k →
      SigAt b k ∧ inWindow b k ∧ ∀ j, inWindow b j → SigAt b j → j ≤ k) :=
  ⟨(openZip_error_iff_findEnd_none b).trans (findEnd_eq_none_iff hv),
   fun _ h => findEnd_eq_some_max hv h⟩

/-- Witness for C2: the empty buffer has no in-window signature and opening
it fails with `INVALID_FORMAT`. -/
theorem openZip_invalid_format_iff_no_sig_witness : openZip [] = Except.error () := by
  have h := (openZip_invalid_format_iff_no_sig [] (by intro x hx; cases hx)).1
  apply h.mpr
  intro i hi
  exact absurd hi.1 (by simp [List.length_nil])

/-! ### Helper lemmas: tables over lists with pairwise-distinct names -/

theorem boolEqOfIff {a b : Bool} (h : a = true ↔ b = true) : a = b := by
  cases a <;> cases b <;> simp_all

theorem tableSet_absent {t : List (Bytes × Entry)} {k : Bytes}
    (h : ¬ k ∈ t.map Prod.fst) (v : Entry) : tableSet t k v = t ++ [(k, v)] := by
  have hany : t.any (fun p => p.1 == k) = false := by
    rw [Bool.eq_false_iff]
    intro hc
    obtain ⟨p, hp, hpk⟩ := List.any_eq_true.mp hc
    exact h (List.mem_map.mpr ⟨p, hp, eq_of_beq hpk⟩)
  simp only [tableSet, hany, Bool.false_eq_true, if_false]

theorem namesOf_cons_nodup {a : Entry} {l : List Entry}
    (hnd : (namesOf (a :: l)).Nodup) :
    (∀ x ∈ l, ¬ x.rawEntryName = a.rawEntryName) ∧ (namesOf l).Nodup := by
  have h := hnd
  simp only [namesOf, List.map_cons, List.nodup_cons] at h
  refine ⟨?_, by simpa [namesOf] using h.2⟩
  intro x hx he
  exact h.1 (by rw [← he]; exact List.mem_map.mpr ⟨x, hx, rfl⟩)

theorem tableOf_eq_map {l : List Entry} (hnd : (namesOf l).Nodup) :
    tableOf l = l.map (fun e => (e.rawEntryName, e)) := by
  have haux : ∀ (l2 : List Entry) (t : List (Bytes × Entry)),
      (t.map Prod.fst ++ namesOf l2).Nodup →
      l2.foldl (fun t e => tableSet t e.rawEntryName e) t =
        t ++ l2.map (fun e => (e.rawEntryName, e)) := by
    intro l2
    induction l2 with
    | nil => intro t _; simp
    | cons e l2 ih =>
      intro t hnd2
      have hem : ¬ e.rawEntryName ∈ t.map Prod.fst := by
        intro hc
        have h1 : e.rawEntryName ∈ namesOf (e :: l2) := by
          simp [namesOf]
        exact (List.nodup_append.mp hnd2).2.2 hc h1
      rw [List.foldl_cons, tableSet_absent hem]
      have hnd3 : ((t ++ [(e.rawEntryName, e)]).map Prod.fst ++ namesOf l2).Nodup := by
        simp only [List.map_append, List.map_cons, List.map_nil, namesOf] at hnd2 ⊢
        simp only [List.append_assoc, List.singleton_append] at hnd2 ⊢
        exact hnd2
      rw [ih _ hnd3]
      simp
  have h0 := haux l []
  simp only [List.map_nil, List.nil_append] at h0
  exact (h0 hnd).trans (by simp)

theorem lookupTable_map_pair (l : List Entry) (k : Bytes) :
    lookupTable (l.map (fun e => (e.rawEntryName, e))) k =
      l.find? (fun e => e.rawEntryName == k) := by
  unfold lookupTable
  rw [List.find?_map, Option.map_map]
  have h1 : ((fun p : Bytes × Entry => p.2) ∘ fun e : Entry => (e.rawEntryName, e)) = id := by
    funext e; rfl
  rw [h1, Option.map_id]
  rfl

theorem find?_self_of_nodup {l : List Entry} {c : Entry}
    (hnd : (namesOf l).Nodup) (hc : c ∈ l) :
    l.find? (fun e => e.rawEntryName == c.rawEntryName) = some c := by
  induction l with
  | nil => cases hc
  | cons a l ih =>
    have hparts := namesOf_cons_nodup hnd
    rcases List.mem_cons.mp hc with heq | hcl
    · subst heq
      simp [List.find?_cons]
    · have hname : (a.rawEntryName == c.rawEntryName) = false := by
        apply beq_false_of_ne
        intro he
        exact hparts.1 c hcl (by rw [he])
      rw [List.find?_cons, hname]
      simp only [Bool.false_eq_true, if_false]
      exact ih hparts.2 hcl

theorem lookup_tableOf_of_mem {l : List Entry} {c : Entry}
    (hnd : (namesOf l).Nodup) (hc : c ∈ l) :
    lookupTable (tableOf l) c.rawEntryName = some c := by
  rw [tableOf_eq_map hnd, lookupTable_map_pair, find?_self_of_nodup hnd hc]

theorem lookup_tableOf_some {l : List Entry} {k : Bytes} {d : Entry}
    (hnd : (namesOf l).Nodup) (h : lookupTable (tableOf l) k = some d) :
    d ∈ l ∧ d.rawEntryName = k := by
  rw [tableOf_eq_map hnd, lookupTable_map_pair] at h
  have hp := List.find?_some h
  exact ⟨List.mem_of_find?_eq_some h, eq_of_beq hp⟩

theorem eraseKey_tableOf {l : List Entry} (hnd : (namesOf l).Nodup) (k : Bytes) :
    eraseKey (tableOf l) k = tableOf (l.filter (fun e => !(e.rawEntryName == k))) := by
  have hnd2 : (namesOf (l.filter (fun e => !(e.rawEntryName == k)))).Nodup :=
    ((List.filter_sublist l).map _).nodup hnd
  rw [tableOf_eq_map hnd, tableOf_eq_map hnd2]
  unfold eraseKey
  rw [List.filter_map]
  rfl

/-! ### Helper lemmas: splice at the found index -/

theorem idxFrom_nonneg {c : Entry} : ∀ {l : List Entry}, c ∈ l → 0 ≤ idxFrom c l := by
  intro l
  induction l with
  | nil => intro h; cases h
  | cons a l ih =>
    intro hc
    by_cases hac : (a == c) = true
    · show 0 ≤ (if (a == c) = true then (0 : Int)
        else if idxFrom c l < 0 then -1 else idxFrom c l + 1)
      rw [if_pos hac]
    · have hcl : c ∈ l := by
        rcases List.mem_cons.mp hc with heq | h
        · exact absurd (by rw [heq]; simp : (a == c) = true) hac
        · exact h
      have hr := ih hcl
      show 0 ≤ (if (a == c) = true then (0 : Int)
        else if idxFrom c l < 0 then -1 else idxFrom c l + 1)
      rw [if_neg hac, if_neg (by omega)]
      omega

theorem spliceOne_cons_succ (a : Entry) (l : List Entry) {r : Int} (hr : 0 ≤ r) :
    spliceOne (a :: l) (r + 1) = a :: spliceOne l r := by
  unfold spliceOne
  have h1 : ¬ r + 1 < 0 := by omega
  have h2 : ¬ r < 0 := by omega
  rw [if_neg h1, if_neg h2]
  have h3 : (r + 1).toNat = r.toNat + 1 := by omega
  rw [h3]
  simp only [List.length_cons]
  rw [Nat.succ_min_succ]
  rw [List.take_succ_cons, List.drop_succ_cons]
  rfl

theorem splice_idxFrom_eq_filter {c : Entry} :
    ∀ {l : List Entry}, (namesOf l).Nodup → c ∈ l →
      spliceOne l (idxFrom c l) = l.filter (fun e => !(e.rawEntryName == c.rawEntryName)) := by
  intro l
  induction l with
  | nil => intro _ h; cases h
  | cons a l ih =>
    intro hnd hc
    have hparts := namesOf_cons_nodup hnd
    by_cases hac : (a == c) = true
    · have hae : a = c := eq_of_beq hac
      subst hae
      have h0 : idxFrom a (a :: l) = 0 := by
        show (if (a == a) = true then (0 : Int)
          else if idxFrom a l < 0 then -1 else idxFrom a l + 1) = 0
        rw [if_pos (by simp)]
      rw [h0]
      have hsp : spliceOne (a :: l) 0 = l := by
        unfold spliceOne
        rw [if_neg (by omega)]
        simp
      rw [hsp]
      have hhead : (!(a.rawEntryName == a.rawEntryName)) = false := by simp
      rw [List.filter_cons, hhead]
      simp only [Bool.false_eq_true, if_false]
      rw [eq_comm, List.filter_eq_self]
      intro e he
      simp [hparts.1 e he]
    · have hcl : c ∈ l := by
        rcases List.mem_cons.mp hc with heq | h
        · exact absurd (by rw [heq]; simp : (a == c) = true) hac
        · exact h
      have hr := idxFrom_nonneg hcl
      have hidx : idxFrom c (a :: l) = idxFrom c l + 1 := by
        show (if (a == c) = true then (0 : Int)
          else if idxFrom c l < 0 then -1 else idxFrom c l + 1) = idxFrom c l + 1
        rw [if_neg hac, if_neg (by omega)]
      rw [hidx, spliceOne_cons_succ a l hr]
      have hanc : ¬ a.rawEntryName = c.rawEntryName := by
        intro hx
        exact hparts.1 c hcl (by rw [hx])
      rw [ih hparts.2 hcl]
      rw [List.filter_cons]
      have hkeep : (!(a.rawEntryName == c.rawEntryName)) = true := by simp [hanc]
      rw [hkeep]
      simp

/-! ### Helper lemmas: the deleteEntry recursion on flat directories -/

theorem delete_nondir_step {acc : ContainerState} {n : Bytes} {c : Entry}
    (hl : lookupTable acc.entryTable n = some c) (hdir : isDirectory c = false) :
    ∀ f, deleteFuel f acc n = deleteFinish acc (some c) n := by
  intro f
  cases f with
  | zero =>
    show deleteFinish acc (lookupTable acc.entryTable n) n = _
    rw [hl]
  | succ f =>
    simp only [deleteFuel, hl, hdir, Bool.false_eq_true, if_false]

theorem deleteFinish_some_char {acc : ContainerState} {c : Entry}
    (hnd : (namesOf acc.entryList).Nodup) (hc : c ∈ acc.entryList)
    (ht : acc.entryTable = tableOf acc.entryList) :
    deleteFinish acc (some c) c.rawEntryName =
      { entryList := acc.entryList.filter (fun e => !(e.rawEntryName == c.rawEntryName))
        entryTable :=
          tableOf (acc.entryList.filter (fun e => !(e.rawEntryName == c.rawEntryName)))
        comment := acc.comment
        mainHeader := { acc.mainHeader with totalEntries :=
          (acc.entryList.filter (fun e => !(e.rawEntryName == c.rawEntryName))).length } } := by
  unfold deleteFinish
  have hsp : spliceOne acc.entryList (jsIndexOf acc.entryList (some c)) =
      acc.entryList.filter (fun e => !(e.rawEntryName == c.rawEntryName)) := by
    show spliceOne acc.entryList (idxFrom c acc.entryList) = _
    exact splice_idxFrom_eq_filter hnd hc
  rw [hsp, ht, eraseKey_tableOf hnd]

theorem foldl_if_skip {α β : Type} (p : β → Bool) (g : α → β → α) :
    ∀ (cs : List β) (a : α),
      cs.foldl (fun acc c => if p c then acc else g acc c) a =
        (cs.filter (fun c => !(p c))).foldl g a := by
  intro cs
  induction cs with
  | nil => intro a; rfl
  | cons c cs ih =>
    intro a
    rw [List.foldl_cons, List.filter_cons]
    cases hp : p c with
    | true => simp only [hp, if_true, Bool.not_true, Bool.false_eq_true, if_false, ih]
    | false => simp only [hp, Bool.false_eq_true, if_false, Bool.not_false, if_true,
        List.foldl_cons, ih]

theorem foldDelete_nondirs (l : List Entry) (hnd : (namesOf l).Nodup) (f : Nat) :
    ∀ (cs : List Entry) (P : List Bytes) (acc : ContainerState),
      acc.entryList = l.filter (fun e => !decide (e.rawEntryName ∈ P)) →
      acc.entryTable = tableOf acc.entryList →
      (∀ c ∈ cs, c ∈ l ∧ c.rawEntryName ∉ P ∧ isDirectory c = false) →
      (namesOf cs).Nodup →
      ((cs.foldl (fun a c => deleteFuel f a c.rawEntryName) acc).entryList
          = l.filter (fun e => !decide (e.rawEntryName ∈ P ++ namesOf cs)) ∧
       (cs.foldl (fun a c => deleteFuel f a c.rawEntryName) acc).entryTable
          = tableOf (cs.foldl (fun a c => deleteFuel f a c.rawEntryName) acc).entryList ∧
       (cs.foldl (fun a c => deleteFuel f a c.rawEntryName) acc).comment = acc.comment) := by
  intro cs
  induction cs with
  | nil =>
    intro P acc hlist htab _ _
    refine ⟨?_, by simpa using htab, rfl⟩
    simpa [namesOf] using hlist
  | cons c cs ih =>
    intro P acc hlist htab hcs hndcs
    obtain ⟨hcl, hcP, hcdir⟩ := hcs c (List.mem_cons_self c cs)
    have hndacc : (namesOf acc.entryList).Nodup := by
      rw [hlist]
      exact ((List.filter_sublist l).map _).nodup hnd
    have hmemacc : c ∈ acc.entryList := by
      rw [hlist]
      exact List.mem_filter.mpr ⟨hcl, by simp [hcP]⟩
    have hlook : lookupTable acc.entryTable c.rawEntryName = some c := by
      rw [htab]
      exact lookup_tableOf_of_mem hndacc hmemacc
    rw [List.foldl_cons, delete_nondir_step hlook hcdir f,
      deleteFinish_some_char hndacc hmemacc htab]
    have hparts := namesOf_cons_nodup hndcs
    have hstep : acc.entryList.filter (fun e => !(e.rawEntryName == c.rawEntryName)) =
        l.filter (fun e => !decide (e.rawEntryName ∈ P ++ [c.rawEntryName])) := by
      rw [hlist, List.filter_filter]
      apply List.filter_congr
      intro e _
      apply boolEqOfIff
      simp only [Bool.and_eq_true, Bool.not_eq_true', beq_eq_false_iff_ne, ne_eq,
        decide_eq_false_iff_not, List.mem_append, List.mem_singleton, Bool.not_eq_true,
        decide_eq_false_iff_not]
      tauto
    have hres := ih (P ++ [c.rawEntryName])
      { entryList := acc.entryList.filter (fun e => !(e.rawEntryName == c.rawEntryName))
        entryTable :=
          tableOf (acc.entryList.filter (fun e => !(e.rawEntryName == c.rawEntryName)))
        comment := acc.comment
        mainHeader := { acc.mainHeader with totalEntries :=
          (acc.entryList.filter (fun e => !(e.rawEntryName == c.rawEntryName))).length } }
      hstep rfl
      (by
        intro x hx
        obtain ⟨hxl, hxP, hxdir⟩ := hcs x (List.mem_cons_of_mem c hx)
        refine ⟨hxl, ?_, hxdir⟩
        intro hcontra
        rcases List.mem_append.mp hcontra with h1 | h1
        · exact hxP h1
        · exact hparts.1 x hx (List.mem_singleton.mp h1))
      hparts.2
    have happ : (P ++ [c.rawEntryName]) ++ namesOf cs = P ++ namesOf (c :: cs) := by
      simp [namesOf]
    rw [happ] at hres
    exact ⟨hres.1, hres.2.1, hres.2.2⟩

theorem startsWith_self (n : Bytes) : startsWith n n = true := by
  simp [startsWith, List.take_length]

/-- Claim C5 (counterexample): deleting the nested directory `a/` from the
container `[a/, a/b/, a/b/c, z]` empties the whole list — the unrelated
entry `z` is removed too, because the grandchild `a/b/c` is deleted twice
and the second, stale deletion splices at `-1`. The claim's predicted
remainder is exactly `[z]`. -/
theorem deleteEntry_nested_dir_counterexample :
    (deleteEntry nestedState [97, 47]).entryList = [] ∧
    nestedState.entryList.filter
      (fun e => !(startsWith [97, 47] e.rawEntryName)) = [fileZ] := by
  constructor
  · rfl
  · rfl

/-- Claim C5 (amended): when the directory has no subdirectory among its
proper children (flat case), and table and list are consistent with
pairwise-distinct names, `deleteEntry` removes from the list and the table
exactly the entries whose name has the directory's name as literal byte
sequence at the start, keeping every other entry, in order. -/
theorem deleteEntry_flat_dir_exact (s : ContainerState) (dname : Bytes) (d : Entry)
    (hnd : (namesOf s.entryList).Nodup)
    (ht : s.entryTable = tableOf s.entryList)
    (hlook : lookupTable s.entryTable dname = some d)
    (hdir : isDirectory d = true)
    (hflat : ∀ e ∈ s.entryList, startsWith dname e.rawEntryName = true →
      ¬ e.rawEntryName = dname → isDirectory e = false) :
    (deleteEntry s dname).entryList
        = s.entryList.filter (fun e => !(startsWith dname e.rawEntryName)) ∧
    (deleteEntry s dname).entryTable
        = tableOf ((deleteEntry s dname).entryList) ∧
    (deleteEntry s dname).mainHeader.totalEntries
        = (deleteEntry s dname).entryList.length := by
  obtain ⟨hdl, hdn⟩ := lookup_tableOf_some hnd (ht ▸ hlook)
  set cs := (getEntryChildren s d).filter (fun c => !(c.rawEntryName == dname)) with hcs
  have hchild : ∀ c ∈ cs, c ∈ s.entryList ∧
      startsWith dname c.rawEntryName = true ∧ ¬ c.rawEntryName = dname := by
    intro c hc
    have h1 := List.mem_filter.mp hc
    have h2 : getEntryChildren s d =
        s.entryList.filter
          (fun z => z.rawEntryName.take d.rawEntryName.length == d.rawEntryName) := by
      unfold getEntryChildren
      rw [if_pos hdir]
    rw [h2] at h1
    have h3 := List.mem_filter.mp h1.1
    refine ⟨h3.1, ?_, ?_⟩
    · show (c.rawEntryName.take dname.length == dname) = true
      rw [← hdn]
      exact h3.2
    · have := h1.2
      simpa using this
  have hdnamecs : dname ∉ namesOf cs := by
    intro hc
    obtain ⟨c, hcm, hcn⟩ := List.mem_map.mp hc
    exact (hchild c hcm).2.2 hcn
  have hfold := foldDelete_nondirs s.entryList hnd (maxNameLen s) cs [] s
    (by
      rw [eq_comm, List.filter_eq_self]
      intro e _
      simp)
    (by simpa using ht)
    (by
      intro c hc
      obtain ⟨h1, h2, h3⟩ := hchild c hc
      exact ⟨h1, by simp, hflat c h1 h2 h3⟩)
    (by
      have hsub : cs.Sublist s.entryList := by
        refine List.Sublist.trans (List.filter_sublist _) ?_
        have h2 : getEntryChildren s d =
            s.entryList.filter
              (fun z => z.rawEntryName.take d.rawEntryName.length == d.rawEntryName) := by
          unfold getEntryChildren
          rw [if_pos hdir]
        rw [h2]
        exact List.filter_sublist _
      exact (hsub.map _).nodup hnd)
  set s1 := cs.foldl (fun a c => deleteFuel (maxNameLen s) a c.rawEntryName) s with hs1
  have hstart : deleteEntry s dname = deleteFinish s1 (some d) dname := by
    unfold deleteEntry
    simp only [deleteFuel, hlook, hdir, if_true]
    rw [foldl_if_skip]
  have hs1nd : (namesOf s1.entryList).Nodup := by
    rw [hfold.1]
    exact ((List.filter_sublist _).map _).nodup hnd
  have hds1 : d ∈ s1.entryList := by
    rw [hfold.1]
    refine List.mem_filter.mpr ⟨hdl, ?_⟩
    simp only [List.nil_append, Bool.not_eq_true', decide_eq_false_iff_not]
    rw [hdn]
    exact hdnamecs
  have hfin : deleteFinish s1 (some d) dname =
      deleteFinish s1 (some d) d.rawEntryName := by rw [hdn]
  rw [hstart, hfin, deleteFinish_some_char hs1nd hds1 hfold.2.1]
  have hlists : s1.entryList.filter (fun e => !(e.rawEntryName == d.rawEntryName)) =
      s.entryList.filter (fun e => !(startsWith dname e.rawEntryName)) := by
    rw [hfold.1, List.filter_filter]
    apply List.filter_congr
    intro e hel
    apply boolEqOfIff
    simp only [Bool.and_eq_true, Bool.not_eq_true', beq_eq_false_iff_ne, ne_eq,
      List.nil_append, decide_eq_false_iff_not, Bool.not_eq_true]
    constructor
    · intro hcond
      by_contra hsw
      rw [Bool.not_eq_false] at hsw
      have hne : ¬ e.rawEntryName = dname := by
        rw [← hdn]; exact hcond.1
      have hech : e ∈ getEntryChildren s d := by
        have h2 : getEntryChildren s d =
            s.entryList.filter
              (fun z => z.rawEntryName.take d.rawEntryName.length == d.rawEntryName) := by
          unfold getEntryChildren
          rw [if_pos hdir]
        rw [h2]
        refine List.mem_filter.mpr ⟨hel, ?_⟩
        rw [hdn]
        exact hsw
      have hecs : e ∈ cs := by
        refine List.mem_filter.mpr ⟨hech, ?_⟩
        simp [hne]
      exact hcond.2 (List.mem_map.mpr ⟨e, hecs, rfl⟩)
    · intro hsw
      constructor
      · intro heq
        rw [hdn] at heq
        rw [heq, startsWith_self] at hsw
        cases hsw
      · intro hc
        obtain ⟨c, hcm, hcn⟩ := List.mem_map.mp hc
        have := (hchild c hcm).2.1
        rw [hcn] at this
        rw [this] at hsw
        cases hsw
  rw [hlists]
  exact ⟨rfl, rfl, rfl⟩

/-- Witness for the amended C5 on a flat directory: deleting `a/` from
`[a/, a/x, z]` leaves exactly `[z]`. -/
theorem deleteEntry_flat_dir_exact_witness :
    (deleteEntry flatState [97, 47]).entryList
        = flatState.entryList.filter (fun e => !(startsWith [97, 47] e.rawEntryName)) ∧
    (deleteEntry flatState [97, 47]).entryTable
        = tableOf ((deleteEntry flatState [97, 47]).entryList) ∧
    (deleteEntry flatState [97, 47]).mainHeader.totalEntries
        = (deleteEntry flatState [97, 47]).entryList.length :=
  deleteEntry_flat_dir_exact flatState [97, 47] dirA (by decide) (by decide) (by decide)
    (by decide) (by decide)

/-! ### Helper lemmas: the lexicographic name order -/

theorem lexLt_irrefl : ∀ a : Bytes, lexLt a a = false := by
  intro a
  induction a with
  | nil => rfl
  | cons x xs ih =>
    show (if x < x then true else if x < x then false else lexLt xs xs) = false
    rw [if_neg (by omega), if_neg (by omega)]
    exact ih

theorem lexLt_trans : ∀ a b c : Bytes,
    lexLt a b = true → lexLt b c = true → lexLt a c = true := by
  intro a
  induction a with
  | nil =>
    intro b c h1 h2
    cases b with
    | nil => cases h1
    | cons y bs =>
      cases c with
      | nil => cases h2
      | cons z cs => rfl
  | cons x as ih =>
    intro b c h1 h2
    cases b with
    | nil => cases h1
    | cons y bs =>
      cases c with
      | nil => cases h2
      | cons z cs =>
        have h1' : (if x < y then true else if y < x then false else lexLt as bs) = true := h1
        have h2' : (if y < z then true else if z < y then false else lexLt bs cs) = true := h2
        show (if x < z then true else if z < x then false else lexLt as cs) = true
        by_cases hxy : x < y
        · by_cases hyz : y < z
          · rw [if_pos (by omega)]
          · rw [if_neg hyz] at h2'
            by_cases hzy : z < y
            · rw [if_pos hzy] at h2'; cases h2'
            · rw [if_pos (by omega)]
        · rw [if_neg hxy] at h1'
          by_cases hyx : y < x
          · rw [if_pos hyx] at h1'; cases h1'
          · rw [if_neg hyx] at h1'
            by_cases hyz : y < z
            · rw [if_pos (by omega)]
            · rw [if_neg hyz] at h2'
              by_cases hzy : z < y
              · rw [if_pos hzy] at h2'; cases h2'
              · rw [if_neg hzy] at h2'
                rw [if_neg (by omega), if_neg (by omega)]
                exact ih bs cs h1' h2'

theorem lexLt_asymm {a b : Bytes} (h : lexLt a b = true) : lexLt b a = false := by
  by_contra hc
  rw [Bool.not_eq_false] at hc
  have := lexLt_trans a b a h hc
  rw [lexLt_irrefl] at this
  cases this

theorem lexLt_connex : ∀ a b : Bytes,
    lexLt a b = false → lexLt b a = false → a = b := by
  intro a
  induction a with
  | nil =>
    intro b h1 _
    cases b with
    | nil => rfl
    | cons y bs => cases h1
  | cons x as ih =>
    intro b h1 h2
    cases b with
    | nil => cases h2
    | cons y bs =>
      have h1' : (if x < y then true else if y < x then false else lexLt as bs) = false := h1
      have h2' : (if y < x then true else if x < y then false else lexLt bs as) = false := h2
      by_cases hxy : x < y
      · rw [if_pos hxy] at h1'; cases h1'
      · by_cases hyx : y < x
        · rw [if_pos hyx] at h2'; cases h2'
        · rw [if_neg hxy, if_neg hyx] at h1'
          rw [if_neg hyx, if_neg hxy] at h2'
          have hx : x = y := by omega
          rw [hx, ih bs h1' h2']

theorem nameLe_total : ∀ a b : Entry, nameLe a b ∨ nameLe b a := by
  intro a b
  by_cases h : lexLt (lowerName b) (lowerName a) = true
  · right
    show ¬ lexLt (lowerName a) (lowerName b) = true
    rw [lexLt_asymm h]
    simp
  · left
    exact h

theorem nameLe_trans : ∀ a b c : Entry, nameLe a b → nameLe b c → nameLe a c := by
  intro a b c h1 h2
  show ¬ lexLt (lowerName c) (lowerName a) = true
  intro hca
  have h1' : lexLt (lowerName b) (lowerName a) = false := by
    have := h1; rwa [nameLe, Bool.not_eq_true] at this
  have h2' : lexLt (lowerName c) (lowerName b) = false := by
    have := h2; rwa [nameLe, Bool.not_eq_true] at this
  by_cases hab : lexLt (lowerName a) (lowerName b) = true
  · have := lexLt_trans _ _ _ hca hab
    rw [h2'] at this; cases this
  · have heq := lexLt_connex _ _ (by rwa [Bool.not_eq_true] at hab) h1'
    rw [← heq] at h2'
    rw [h2'] at hca; cases hca

theorem nameGe_total : ∀ a b : Entry, nameGe a b ∨ nameGe b a := by
  intro a b
  by_cases h : lexLt (lowerName a) (lowerName b) = true
  · right
    show ¬ lexLt (lowerName b) (lowerName a) = true
    rw [lexLt_asymm h]
    simp
  · left
    exact h

theorem nameGe_trans : ∀ a b c : Entry, nameGe a b → nameGe b c → nameGe a c := by
  intro a b c h1 h2
  show ¬ lexLt (lowerName a) (lowerName c) = true
  intro hac
  have h1' : lexLt (lowerName a) (lowerName b) = false := by
    have := h1; rwa [nameGe, Bool.not_eq_true] at this
  have h2' : lexLt (lowerName b) (lowerName c) = false := by
    have := h2; rwa [nameGe, Bool.not_eq_true] at this
  by_cases hba : lexLt (lowerName b) (lowerName a) = true
  · have := lexLt_trans _ _ _ hba hac
    rw [h2'] at this; cases this
  · have heq := lexLt_connex _ _ h1' (by rwa [Bool.not_eq_true] at hba)
    rw [heq] at hac
    rw [h2'] at hac; cases hac

/-! ### Helper lemmas: the two serialization sorts -/

theorem sortedForSync_perm (l : List Entry) : (sortedForSync l).Perm l := by
  unfold sortedForSync
  by_cases h : l.length > 1
  · rw [if_pos h]; exact List.perm_insertionSort _ _
  · rw [if_neg h]

theorem sortedForAsync_perm (l : List Entry) : (sortedForAsync l).Perm l := by
  unfold sortedForAsync
  by_cases h : l.length > 1
  · rw [if_pos h]; exact List.perm_insertionSort _ _
  · rw [if_neg h]

theorem sortedForSync_sorted (l : List Entry) :
    List.Sorted nameLe (sortedForSync l) := by
  unfold sortedForSync
  by_cases h : l.length > 1
  · rw [if_pos h]
    exact @List.sorted_insertionSort _ nameLe _ ⟨nameLe_total⟩ ⟨nameLe_trans⟩ l
  · rw [if_neg h]
    cases l with
    | nil => simp
    | cons a t =>
      cases t with
      | nil => simp
      | cons b t2 =>
        exfalso
        apply h
        simp only [List.length_cons]
        omega

theorem sortedForAsync_sorted (l : List Entry) :
    List.Sorted nameGe (sortedForAsync l) := by
  unfold sortedForAsync
  by_cases h : l.length > 1
  · rw [if_pos h]
    exact @List.sorted_insertionSort _ nameGe _ ⟨nameGe_total⟩ ⟨nameGe_trans⟩ l
  · rw [if_neg h]
    cases l with
    | nil => simp
    | cons a t =>
      cases t with
      | nil => simp
      | cons b t2 =>
        exfalso
        apply h
        simp only [List.length_cons]
        omega

theorem strict_of_sorted_nodup {l : List Entry}
    (hs : List.Sorted nameLe l) (hnd : (l.map lowerName).Nodup) :
    List.Pairwise (fun a b => lexLt (lowerName a) (lowerName b) = true) l := by
  have hne : List.Pairwise (fun a b => lowerName a ≠ lowerName b) l :=
    List.pairwise_map.mp hnd
  refine (List.Pairwise.and hs hne).imp ?_
  intro a b hab
  obtain ⟨h1, h2⟩ := hab
  by_contra hc
  rw [Bool.not_eq_true] at hc
  have h1' : lexLt (lowerName b) (lowerName a) = false := by
    have := h1; rwa [nameLe, Bool.not_eq_true] at this
  exact h2 (lexLt_connex _ _ hc h1')

theorem reverse_sortedForAsync_eq (l : List Entry)
    (hnd : (l.map lowerName).Nodup) :
    (sortedForAsync l).reverse = sortedForSync l := by
  by_cases h : l.length > 1
  · have hpermA : (sortedForSync l).Perm l := sortedForSync_perm l
    have hpermD : (sortedForAsync l).reverse.Perm l :=
      (List.reverse_perm _).trans (sortedForAsync_perm l)
    have hsortA : List.Sorted nameLe (sortedForSync l) := sortedForSync_sorted l
    have hsortD : List.Sorted nameGe (sortedForAsync l) := sortedForAsync_sorted l
    have hsortDR : List.Sorted nameLe (sortedForAsync l).reverse := by
      apply List.pairwise_reverse.mpr
      exact hsortD
    have hndA : ((sortedForSync l).map lowerName).Nodup :=
      ((hpermA.map lowerName).nodup_iff).mpr hnd
    have hndD : (((sortedForAsync l).reverse).map lowerName).Nodup :=
      ((hpermD.map lowerName).nodup_iff).mpr hnd
    have hstrictA := strict_of_sorted_nodup hsortA hndA
    have hstrictD := strict_of_sorted_nodup hsortDR hndD
    have hanti : ∀ a b : Entry, lexLt (lowerName a) (lowerName b) = true →
        lexLt (lowerName b) (lowerName a) = true → a = b := by
      intro a b h1 h2
      rw [lexLt_asymm h1] at h2
      cases h2
    exact @List.eq_of_perm_of_sorted _ _ ⟨hanti⟩ _ _ (hpermD.trans hpermA.symm)
      hstrictD hstrictA
  · unfold sortedForAsync sortedForSync
    rw [if_neg h, if_neg h]
    cases l with
    | nil => rfl
    | cons a t =>
      cases t with
      | nil => rfl
      | cons b t2 =>
        exfalso
        apply h
        simp only [List.length_cons]
        omega

/-! ### Helper lemmas: the serialization fold and buffer assembly -/

theorem asyncStep_eq_buildStep : asyncStep = buildStep := by
  funext acc e
  rfl

theorem build_fold_inv (es : List Entry) : ∀ acc : BuildAcc,
    (acc.dataBlock.map List.length).sum = acc.dindex →
    (acc.entryHeaders.map List.length).sum = acc.size →
    acc.totalSize = acc.dindex + acc.size →
    (((es.foldl buildStep acc).dataBlock.map List.length).sum
        = (es.foldl buildStep acc).dindex ∧
     ((es.foldl buildStep acc).entryHeaders.map List.length).sum
        = (es.foldl buildStep acc).size ∧
     (es.foldl buildStep acc).totalSize
        = (es.foldl buildStep acc).dindex + (es.foldl buildStep acc).size) := by
  induction es with
  | nil => intro acc h1 h2 h3; exact ⟨h1, h2, h3⟩
  | cons e es ih =>
    intro acc h1 h2 h3
    rw [List.foldl_cons]
    apply ih
    · show ((acc.dataBlock ++ [dataHeaderToBinary _, postHeaderSync _,
        e.compressedData]).map List.length).sum = acc.dindex + _
      simp only [List.map_append, List.sum_append, List.map_cons, List.map_nil,
        List.sum_cons, List.sum_nil, h1]
      omega
    · show ((acc.entryHeaders ++ [packHeader _]).map List.length).sum = acc.size + _
      simp only [List.map_append, List.sum_append, List.map_cons, List.map_nil,
        List.sum_cons, List.sum_nil, h2]
      omega
    · show acc.totalSize + _ + _ = acc.dindex + _ + (acc.size + _)
      omega

theorem build_fold_entries (es : List Entry) : ∀ acc : BuildAcc,
    ((es.foldl buildStep acc).entries.map metaOf
        = acc.entries.map metaOf ++ es.map metaOf) ∧
    ((es.foldl buildStep acc).entries.map lowerName
        = acc.entries.map lowerName ++ es.map lowerName) ∧
    (es.foldl buildStep acc).entries.length = acc.entries.length + es.length := by
  induction es with
  | nil => intro acc; simp
  | cons e es ih =>
    intro acc
    rw [List.foldl_cons]
    obtain ⟨ih1, ih2, ih3⟩ := ih (buildStep acc e)
    have hmeta : metaOf { e with header := { e.header with offset := acc.dindex } }
        = metaOf e := rfl
    have hname : lowerName { e with header := { e.header with offset := acc.dindex } }
        = lowerName e := rfl
    refine ⟨?_, ?_, ?_⟩
    · rw [ih1]
      show (acc.entries ++ [_]).map metaOf ++ _ = _
      simp [hmeta]
    · rw [ih2]
      show (acc.entries ++ [_]).map lowerName ++ _ = _
      simp [hname]
    · rw [ih3]
      show (acc.entries ++ [_]).length + _ = _
      simp
      omega

theorem copyInto_length (t : Bytes) (off : Nat) (src : Bytes) :
    (copyInto t off src).length = t.length := by
  unfold copyInto
  simp only [List.length_append, List.length_take, List.length_drop]
  omega

theorem copyInto_fill (pre src : Bytes) (m : Nat) (h : src.length ≤ m) :
    copyInto (pre ++ List.replicate m 0) pre.length src
      = pre ++ src ++ List.replicate (m - src.length) 0 := by
  have hn : min src.length ((pre ++ List.replicate m 0).length - pre.length)
      = src.length := by
    simp only [List.length_append, List.length_replicate]
    omega
  have hdrop : List.drop (pre.length + src.length) (pre ++ List.replicate m 0)
      = List.replicate (m - src.length) 0 := by
    rw [← List.drop_drop, List.drop_left, List.drop_replicate]
  unfold copyInto
  show List.take pre.length (pre ++ List.replicate m 0) ++
      List.take (min src.length ((pre ++ List.replicate m 0).length - pre.length)) src ++
      List.drop (pre.length +
        min src.length ((pre ++ List.replicate m 0).length - pre.length))
        (pre ++ List.replicate m 0) = _
  rw [hn, List.take_left, List.take_length, hdrop]

theorem writeSeq_fill : ∀ (blocks : List Bytes) (pre : Bytes) (m : Nat),
    (blocks.map List.length).sum ≤ m →
    writeSeq (pre ++ List.replicate m 0, pre.length) blocks
      = (pre ++ blocks.flatten ++ List.replicate (m - (blocks.map List.length).sum) 0,
         pre.length + (blocks.map List.length).sum) := by
  intro blocks
  induction blocks with
  | nil =>
    intro pre m _
    simp [writeSeq]
  | cons b bs ih =>
    intro pre m h
    have hb : b.length ≤ m := by
      simp only [List.map_cons, List.sum_cons] at h
      omega
    unfold writeSeq
    rw [List.foldl_cons]
    show (bs.foldl (fun p c => (copyInto p.1 p.2 c, p.2 + c.length))
      (copyInto (pre ++ List.replicate m 0) pre.length b, pre.length + b.length)) = _
    rw [copyInto_fill pre b m hb]
    have hlen : pre.length + b.length = (pre ++ b).length := by simp
    rw [hlen]
    have hres := ih (pre ++ b) (m - b.length)
      (by simp only [List.map_cons, List.sum_cons] at h; omega)
    unfold writeSeq at hres
    rw [hres]
    have e1 : m - b.length - (bs.map List.length).sum
        = m - ((b :: bs).map List.length).sum := by
      simp only [List.map_cons, List.sum_cons]
      omega
    have e2 : (pre ++ b).length + (bs.map List.length).sum
        = pre.length + ((b :: bs).map List.length).sum := by
      simp only [List.length_append, List.map_cons, List.sum_cons]
      omega
    rw [e1, e2, List.flatten_cons]
    simp [List.append_assoc]

theorem finalizeBuild_char (acc : BuildAcc) (mh : MainHeader) (cmt : Bytes)
    (h1 : (acc.dataBlock.map List.length).sum = acc.dindex)
    (h2 : (acc.entryHeaders.map List.length).sum = acc.size)
    (h3 : acc.totalSize = acc.dindex + acc.size) :
    (finalizeBuild acc mh cmt).1 = { mh with size := acc.size, offset := acc.dindex } ∧
    (finalizeBuild acc mh cmt).2
      = acc.dataBlock.flatten ++ acc.entryHeaders.flatten ++
          copyInto (endToBinary { mh with size := acc.size, offset := acc.dindex })
            22 cmt ∧
    (finalizeBuild acc mh cmt).2.length
      = acc.dindex + acc.size + (22 + mh.commentLength) := by
  have hendlen : (endToBinary { mh with size := acc.size, offset := acc.dindex }).length
      = 22 + mh.commentLength := by
    have h22 : (endFixed { mh with size := acc.size, offset := acc.dindex }).length
        = 22 := rfl
    simp [endToBinary, h22]
  have hmhbinlen :
      (copyInto (endToBinary { mh with size := acc.size, offset := acc.dindex }) 22
        cmt).length = 22 + mh.commentLength := by
    rw [copyInto_length, hendlen]
  have hdlen : acc.dataBlock.flatten.length = acc.dindex := by
    rw [List.length_flatten, h1]
  have hw1 : writeSeq (List.replicate (acc.totalSize + (22 + mh.commentLength)) 0, 0)
      acc.dataBlock
      = (acc.dataBlock.flatten ++
          List.replicate (acc.totalSize + (22 + mh.commentLength) - acc.dindex) 0,
         acc.dindex) := by
    have hx := writeSeq_fill acc.dataBlock []
      (acc.totalSize + (22 + mh.commentLength)) (by omega)
    simp only [List.nil_append, List.length_nil, Nat.zero_add, h1] at hx
    exact hx
  have hw2 : writeSeq (acc.dataBlock.flatten ++
        List.replicate (acc.totalSize + (22 + mh.commentLength) - acc.dindex) 0,
      acc.dindex) acc.entryHeaders
      = (acc.dataBlock.flatten ++ acc.entryHeaders.flatten ++
          List.replicate (22 + mh.commentLength) 0,
         acc.dindex + acc.size) := by
    have hx := writeSeq_fill acc.entryHeaders acc.dataBlock.flatten
      (acc.totalSize + (22 + mh.commentLength) - acc.dindex) (by omega)
    rw [hdlen, h2] at hx
    rw [hx]
    have harg : acc.totalSize + (22 + mh.commentLength) - acc.dindex - acc.size
        = 22 + mh.commentLength := by omega
    rw [harg]
  unfold finalizeBuild
  refine ⟨rfl, ?_, ?_⟩
  · show copyInto (writeSeq (writeSeq (List.replicate
      (acc.totalSize + (22 + mh.commentLength)) 0, 0) acc.dataBlock)
      acc.entryHeaders).1 (writeSeq (writeSeq (List.replicate
      (acc.totalSize + (22 + mh.commentLength)) 0, 0) acc.dataBlock)
      acc.entryHeaders).2
      (copyInto (endToBinary { mh with size := acc.size, offset := acc.dindex }) 22 cmt)
      = _
    rw [hw1, hw2]
    have hpre : acc.dataBlock.flatten ++ acc.entryHeaders.flatten ++
        List.replicate (22 + mh.commentLength) 0
        = (acc.dataBlock.flatten ++ acc.entryHeaders.flatten) ++
            List.replicate (copyInto (endToBinary
              { mh with size := acc.size, offset := acc.dindex }) 22 cmt).length 0 := by
      rw [hmhbinlen, List.append_assoc]
    rw [hpre]
    have hoff : acc.dindex + acc.size
        = (acc.dataBlock.flatten ++ acc.entryHeaders.flatten).length := by
      simp only [List.length_append, List.length_flatten, h1, h2]
    rw [hoff]
    rw [copyInto_fill (acc.dataBlock.flatten ++ acc.entryHeaders.flatten)
      (copyInto (endToBinary { mh with size := acc.size, offset := acc.dindex }) 22 cmt)
      ((copyInto (endToBinary { mh with size := acc.size, offset := acc.dindex })
        22 cmt).length) (Nat.le_refl _)]
    simp
  · show (copyInto (writeSeq (writeSeq (List.replicate
      (acc.totalSize + (22 + mh.commentLength)) 0, 0) acc.dataBlock)
      acc.entryHeaders).1 (writeSeq (writeSeq (List.replicate
      (acc.totalSize + (22 + mh.commentLength)) 0, 0) acc.dataBlock)
      acc.entryHeaders).2
      (copyInto (endToBinary { mh with size := acc.size, offset := acc.dindex }) 22 cmt)
      ).length = _
    rw [copyInto_length, hw1, hw2]
    simp only [List.length_append, List.length_replicate, List.length_flatten, h1, h2]

/-! ### Claim theorems: C8, C3, C4, C9 -/

/-- Claim C8: `compressToBuffer` sorts the list in place by case-insensitive
name ascending, lays the buffer out as data blocks, then central headers,
then the end record with the comment region, sets `mainHeader.offset` to the
data-section length and `mainHeader.size` to the central-directory length,
and the output length is the sum of the three regions. -/
theorem compressToBuffer_sorted_layout (s : ContainerState) :
    ((compressToBuffer s).1.entryList.map lowerName).Pairwise
      (fun a b => lexLt b a = false) ∧
    ((compressToBuffer s).1.entryList.map metaOf).Perm (s.entryList.map metaOf) ∧
    (compressToBuffer s).2
      = (syncAcc s).dataBlock.flatten ++ (syncAcc s).entryHeaders.flatten ++
          copyInto (endToBinary (compressToBuffer s).1.mainHeader) 22 s.comment ∧
    (compressToBuffer s).1.mainHeader.offset = (syncAcc s).dataBlock.flatten.length ∧
    (compressToBuffer s).1.mainHeader.size = (syncAcc s).entryHeaders.flatten.length ∧
    (compressToBuffer s).2.length
      = (syncAcc s).dataBlock.flatten.length + (syncAcc s).entryHeaders.flatten.length
          + 22 + s.mainHeader.commentLength := by
  have hinv : ((syncAcc s).dataBlock.map List.length).sum = (syncAcc s).dindex ∧
      ((syncAcc s).entryHeaders.map List.length).sum = (syncAcc s).size ∧
      (syncAcc s).totalSize = (syncAcc s).dindex + (syncAcc s).size :=
    build_fold_inv (sortedForSync s.entryList) accInit rfl rfl rfl
  have hchar := finalizeBuild_char (syncAcc s) s.mainHeader s.comment
    hinv.1 hinv.2.1 hinv.2.2
  have hentries := build_fold_entries (sortedForSync s.entryList) accInit
  have hlist : (compressToBuffer s).1.entryList = (syncAcc s).entries := rfl
  have hmh : (compressToBuffer s).1.mainHeader = (finalizeBuild (syncAcc s)
      s.mainHeader s.comment).1 := rfl
  have hout : (compressToBuffer s).2 = (finalizeBuild (syncAcc s)
      s.mainHeader s.comment).2 := rfl
  have hnames : (syncAcc s).entries.map lowerName
      = (sortedForSync s.entryList).map lowerName := by
    have := hentries.2.1
    simpa [accInit] using this
  have hmetas : (syncAcc s).entries.map metaOf
      = (sortedForSync s.entryList).map metaOf := by
    have := hentries.1
    simpa [accInit] using this
  have hdlenflat : (syncAcc s).dataBlock.flatten.length = (syncAcc s).dindex := by
    rw [List.length_flatten, hinv.1]
  have hhlenflat : (syncAcc s).entryHeaders.flatten.length = (syncAcc s).size := by
    rw [List.length_flatten, hinv.2.1]
  refine ⟨?_, ?_, ?_, ?_, ?_, ?_⟩
  · rw [hlist, hnames]
    apply List.pairwise_map.mpr
    refine (sortedForSync_sorted s.entryList).imp ?_
    intro a b hab
    rw [Bool.eq_false_iff]
    intro hc
    exact hab hc
  · rw [hlist, hmetas]
    exact (sortedForSync_perm s.entryList).map metaOf
  · rw [hout, hmh, hchar.1, hchar.2.1]
  · rw [hmh, hchar.1, hdlenflat]
  · rw [hmh, hchar.1, hhlenflat]
  · rw [hout, hchar.2.2, hdlenflat, hhlenflat]
    omega

/-- Claim C3 (counterexample): the asynchronous serializer consumes the
working list in place — after it completes on a two-entry container the
entry list is empty, not the same collection. -/
theorem toAsyncBuffer_consumes_counterexample :
    (toAsyncBuffer twoState).1.entryList = [] ∧ twoState.entryList.length = 2 :=
  ⟨rfl, rfl⟩

/-- Claim C3 (amended): `compressToBuffer` keeps the entry collection —
same count and same metadata multiset, only reordered in place — while
`toAsyncBuffer` pops every entry off `entryList`, leaving it empty after the
chain completes (and already empty lists stay empty). Both only produce a
fresh output buffer; the container's input buffer is not part of either
computation. -/
theorem serialize_collection_effects (s : ContainerState) :
    ((compressToBuffer s).1.entryList.map metaOf).Perm (s.entryList.map metaOf) ∧
    (compressToBuffer s).1.entryList.length = s.entryList.length ∧
    (toAsyncBuffer s).1.entryList = [] := by
  have hentries := build_fold_entries (sortedForSync s.entryList) accInit
  have hlist : (compressToBuffer s).1.entryList = (syncAcc s).entries := rfl
  have hmetas : (syncAcc s).entries.map metaOf
      = (sortedForSync s.entryList).map metaOf := by
    have := hentries.1
    simpa [accInit] using this
  refine ⟨?_, ?_, ?_⟩
  · rw [hlist, hmetas]
    exact (sortedForSync_perm s.entryList).map metaOf
  · rw [hlist]
    have hlen : (syncAcc s).entries.length = (sortedForSync s.entryList).length := by
      have hx := (build_fold_entries (sortedForSync s.entryList) accInit).2.2
      simpa [accInit] using hx
    have hperm := (sortedForSync_perm s.entryList).length_eq
    omega
  · unfold toAsyncBuffer
    cases h : (sortedForAsync s.entryList).isEmpty with
    | false => simp only [h, Bool.false_eq_true, if_false]
    | true =>
      simp only [h, if_true]
      exact List.isEmpty_iff.mp h

/-- Claim C4 (counterexample): on a container with no entries the
asynchronous chain never starts, so the success callback is never invoked —
the finalize computation does not happen for the empty list. -/
theorem toAsyncBuffer_empty_no_success : (toAsyncBuffer emptyState).2 = none := rfl

/-- Claim C4 (amended): for every container with at least one entry,
`toAsyncBuffer` performs the finalize computation and invokes the success
callback exactly once, with the completed buffer laid out as data blocks,
central headers, then the encoded end record with the comment region. -/
theorem toAsyncBuffer_finalizes_nonempty (s : ContainerState)
    (hne : s.entryList ≠ []) :
    (toAsyncBuffer s).2
      = some ((asyncAcc s).dataBlock.flatten ++ (asyncAcc s).entryHeaders.flatten ++
          copyInto (endToBinary (toAsyncBuffer s).1.mainHeader) 22 s.comment) ∧
    (toAsyncBuffer s).1.mainHeader
      = { s.mainHeader with size := (asyncAcc s).size, offset := (asyncAcc s).dindex } := by
  have hiempty : (sortedForAsync s.entryList).isEmpty = false := by
    rw [Bool.eq_false_iff]
    intro hc
    have h0 := List.isEmpty_iff.mp hc
    have hlen := (sortedForAsync_perm s.entryList).length_eq
    rw [h0] at hlen
    exact hne (List.eq_nil_of_length_eq_zero hlen.symm)
  have hinv : ((asyncAcc s).dataBlock.map List.length).sum = (asyncAcc s).dindex ∧
      ((asyncAcc s).entryHeaders.map List.length).sum = (asyncAcc s).size ∧
      (asyncAcc s).totalSize = (asyncAcc s).dindex + (asyncAcc s).size := by
    unfold asyncAcc
    rw [asyncStep_eq_buildStep]
    exact build_fold_inv _ accInit rfl rfl rfl
  have hchar := finalizeBuild_char (asyncAcc s) s.mainHeader s.comment
    hinv.1 hinv.2.1 hinv.2.2
  have hsnd : (toAsyncBuffer s).2
      = some ((finalizeBuild (asyncAcc s) s.mainHeader s.comment).2) := by
    unfold toAsyncBuffer
    simp only [hiempty, Bool.false_eq_true, if_false]
    rfl
  have hmh : (toAsyncBuffer s).1.mainHeader
      = (finalizeBuild (asyncAcc s) s.mainHeader s.comment).1 := by
    unfold toAsyncBuffer
    simp only [hiempty, Bool.false_eq_true, if_false]
    rfl
  refine ⟨?_, ?_⟩
  · rw [hsnd, hmh, hchar.1, hchar.2.1]
  · rw [hmh, hchar.1]

/-- Witness for the amended C4 on the concrete two-entry container. -/
theorem toAsyncBuffer_finalizes_nonempty_witness :
    (toAsyncBuffer twoState).2
      = some ((asyncAcc twoState).dataBlock.flatten ++
          (asyncAcc twoState).entryHeaders.flatten ++
          copyInto (endToBinary (toAsyncBuffer twoState).1.mainHeader) 22
            twoState.comment) ∧
    (toAsyncBuffer twoState).1.mainHeader
      = { twoState.mainHeader with size := (asyncAcc twoState).size, offset := (asyncAcc twoState).dindex } :=
  toAsyncBuffer_finalizes_nonempty twoState (by decide)

set_option maxRecDepth 100000

/-- Claim C9 (counterexample): the asynchronous driver pops entries off the
tail of the descending-sorted working list, so it processes entries in
ascending name order — not descending. On the two-entry container the first
data block is entry `a` (byte 97 right after the 30-byte local header), and
the asynchronous output is byte-identical to the synchronous one rather than
reversed. -/
theorem async_processes_ascending_counterexample :
    (toAsyncBuffer twoState).2 = some ((compressToBuffer twoState).2) ∧
    (compressToBuffer twoState).2.getD 30 0 = 97 := by
  constructor
  · rfl
  · rfl

/-- Claim C9 (amended): the per-entry byte construction of the asynchronous
path is identical to the synchronous one, and since the driver pops the
descending-sorted working list from the tail, it processes entries in
ascending case-insensitive name order; when no two entries have equal
lowered names (and the list is non-empty), the two outputs are
byte-identical. -/
theorem async_construction_matches_sync (s : ContainerState)
    (hne : s.entryList ≠ [])
    (hnd : (s.entryList.map lowerName).Nodup) :
    asyncStep = buildStep ∧
    (toAsyncBuffer s).2 = some ((compressToBuffer s).2) := by
  refine ⟨asyncStep_eq_buildStep, ?_⟩
  have hiempty : (sortedForAsync s.entryList).isEmpty = false := by
    rw [Bool.eq_false_iff]
    intro hc
    have h0 := List.isEmpty_iff.mp hc
    have hlen := (sortedForAsync_perm s.entryList).length_eq
    rw [h0] at hlen
    exact hne (List.eq_nil_of_length_eq_zero hlen.symm)
  have hlist := reverse_sortedForAsync_eq s.entryList hnd
  unfold toAsyncBuffer compressToBuffer
  simp only [hiempty, Bool.false_eq_true, if_false]
  rw [asyncStep_eq_buildStep, hlist]

/-- Witness for the amended C9 on the concrete two-entry container. -/
theorem async_construction_matches_sync_witness :
    asyncStep = buildStep ∧
    (toAsyncBuffer twoState).2 = some ((compressToBuffer twoState).2) :=
  async_construction_matches_sync twoState (by decide) (by decide)

/-! ### Helper lemmas: the open / serialize round trip -/

theorem u16_decomp (a : Nat) : a % 256 + 256 * (a / 256 % 256) = a % 65536 := by
  have h : a % (256 * 256) = a % 256 + 256 * (a / 256 % 256) := Nat.mod_mul
  omega

theorem u32_decomp (a : Nat) :
    a % 256 + 256 * (a / 256 % 256) + 65536 * (a / 65536 % 256) +
      16777216 * (a / 16777216 % 256) = a % 4294967296 := by
  have h1 : a % (65536 * 65536) = a % 65536 + 65536 * (a / 65536 % 65536) := Nat.mod_mul
  have h2 : a % (256 * 256) = a % 256 + 256 * (a / 256 % 256) := Nat.mod_mul
  have h3 : (a / 65536) % (256 * 256)
      = (a / 65536) % 256 + 256 * ((a / 65536) / 256 % 256) := Nat.mod_mul
  have h4 : a / 65536 / 256 = a / 16777216 := by
    rw [Nat.div_div_eq_div_mul]
  rw [h4] at h3
  omega

theorem readUInt16LE_lt {b : Bytes} (hv : ValidBytes b) (i : Nat) :
    readUInt16LE b i < 65536 := by
  have h0 := byteAt_lt_256 hv i
  have h1 := byteAt_lt_256 hv (i + 1)
  unfold readUInt16LE
  omega

theorem readUInt32LE_lt {b : Bytes} (hv : ValidBytes b) (i : Nat) :
    readUInt32LE b i < 4294967296 := by
  have h0 := byteAt_lt_256 hv i
  have h1 := byteAt_lt_256 hv (i + 1)
  have h2 := byteAt_lt_256 hv (i + 2)
  have h3 := byteAt_lt_256 hv (i + 3)
  unfold readUInt32LE
  omega

theorem ValidBytes_sliceBuf {b : Bytes} (hv : ValidBytes b) (st en : Nat) :
    ValidBytes (sliceBuf b st en) := by
  intro x hx
  exact hv x (List.mem_of_mem_drop (List.mem_of_mem_take hx))

theorem sliceBuf_length_le (b : Bytes) (st en : Nat) :
    (sliceBuf b st en).length ≤ en - st := by
  unfold sliceBuf
  simp only [List.length_take]
  omega

theorem parseEntryAt_WF {b : Bytes} (hv : ValidBytes b) (idx : Nat) :
    EntryWF (parseEntryAt b idx) ∧ (parseEntryAt b idx).compressedData = [] := by
  have hvs : ValidBytes (sliceBuf b idx (idx + 46)) := ValidBytes_sliceBuf hv _ _
  constructor
  · refine ⟨readUInt16LE_lt hvs 4, readUInt16LE_lt hvs 6, readUInt16LE_lt hvs 8,
      readUInt16LE_lt hvs 10, readUInt32LE_lt hvs 12, readUInt32LE_lt hvs 16,
      readUInt32LE_lt hvs 20, readUInt32LE_lt hvs 24, readUInt16LE_lt hvs 34,
      readUInt16LE_lt hvs 36, readUInt32LE_lt hvs 38, ?_, ?_, ?_⟩
    · show (sliceBuf b (idx + 46) (idx + 46 + readUInt16LE (sliceBuf b idx (idx + 46)) 28)).length < 65536
      have h1 := sliceBuf_length_le b (idx + 46)
        (idx + 46 + readUInt16LE (sliceBuf b idx (idx + 46)) 28)
      have h2 := readUInt16LE_lt hvs 28
      omega
    · show (if readUInt16LE (sliceBuf b idx (idx + 46)) 30 ≠ 0 then _ else []).length < 65536
      by_cases h : readUInt16LE (sliceBuf b idx (idx + 46)) 30 ≠ 0
      · rw [if_pos h]
        have h1 := sliceBuf_length_le b
          (idx + 46 + readUInt16LE (sliceBuf b idx (idx + 46)) 28)
          (idx + 46 + readUInt16LE (sliceBuf b idx (idx + 46)) 28 +
            readUInt16LE (sliceBuf b idx (idx + 46)) 30)
        have h2 := readUInt16LE_lt hvs 30
        omega
      · rw [if_neg h]
        simp
    · show (if readUInt16LE (sliceBuf b idx (idx + 46)) 32 ≠ 0 then _ else []).length < 65536
      by_cases h : readUInt16LE (sliceBuf b idx (idx + 46)) 32 ≠ 0
      · rw [if_pos h]
        have h1 := sliceBuf_length_le b
          (idx + 46 + readUInt16LE (sliceBuf b idx (idx + 46)) 28 +
            readUInt16LE (sliceBuf b idx (idx + 46)) 30)
          (idx + 46 + readUInt16LE (sliceBuf b idx (idx + 46)) 28 +
            readUInt16LE (sliceBuf b idx (idx + 46)) 30 +
            readUInt16LE (sliceBuf b idx (idx + 46)) 32)
        have h2 := readUInt16LE_lt hvs 32
        omega
      · rw [if_neg h]
        simp
  · rfl

theorem parseEntries_length (b : Bytes) : ∀ n idx, (parseEntries b n idx).length = n := by
  intro n
  induction n with
  | zero => intro idx; rfl
  | succ n ih =>
    intro idx
    unfold parseEntries
    simp [ih]

theorem parseEntries_mem (b : Bytes) :
    ∀ n idx e, e ∈ parseEntries b n idx → ∃ j, e = parseEntryAt b j := by
  intro n
  induction n with
  | zero => intro idx e h; cases h
  | succ n ih =>
    intro idx e h
    unfold parseEntries at h
    rcases List.mem_cons.mp h with heq | hmem
    · exact ⟨idx, heq⟩
    · exact ih _ e hmem

theorem cenFixed_length (e : Entry) : (cenFixed e).length = 46 := rfl

theorem endFixed_length (m : MainHeader) : (endFixed m).length = 22 := rfl

theorem packHeader_length (e : Entry) :
    (packHeader e).length
      = 46 + e.rawEntryName.length + e.extra.length + e.comment.length := by
  unfold packHeader
  simp only [List.length_append, cenFixed_length]

theorem cen_read_made (e : Entry) :
    readUInt16LE (cenFixed e) 4 = e.header.made % 65536 := by
  have h : readUInt16LE (cenFixed e) 4
      = e.header.made % 256 + 256 * (e.header.made / 256 % 256) := rfl
  rw [h, u16_decomp]

theorem cen_read_version (e : Entry) :
    readUInt16LE (cenFixed e) 6 = e.header.version % 65536 := by
  have h : readUInt16LE (cenFixed e) 6
      = e.header.version % 256 + 256 * (e.header.version / 256 % 256) := rfl
  rw [h, u16_decomp]

theorem cen_read_flags (e : Entry) :
    readUInt16LE (cenFixed e) 8 = e.header.flags % 65536 := by
  have h : readUInt16LE (cenFixed e) 8
      = e.header.flags % 256 + 256 * (e.header.flags / 256 % 256) := rfl
  rw [h, u16_decomp]

theorem cen_read_method (e : Entry) :
    readUInt16LE (cenFixed e) 10 = e.header.method % 65536 := by
  have h : readUInt16LE (cenFixed e) 10
      = e.header.method % 256 + 256 * (e.header.method / 256 % 256) := rfl
  rw [h, u16_decomp]

theorem cen_read_timeDate (e : Entry) :
    readUInt32LE (cenFixed e) 12 = e.header.timeDate % 4294967296 := by
  have h : readUInt32LE (cenFixed e) 12
      = e.header.timeDate % 256 + 256 * (e.header.timeDate / 256 % 256) +
        65536 * (e.header.timeDate / 65536 % 256) +
        16777216 * (e.header.timeDate / 16777216 % 256) := rfl
  rw [h, u32_decomp]

theorem cen_read_crc (e : Entry) :
    readUInt32LE (cenFixed e) 16 = e.header.crc % 4294967296 := by
  have h : readUInt32LE (cenFixed e) 16
      = e.header.crc % 256 + 256 * (e.header.crc / 256 % 256) +
        65536 * (e.header.crc / 65536 % 256) +
        16777216 * (e.header.crc / 16777216 % 256) := rfl
  rw [h, u32_decomp]

theorem cen_read_csize (e : Entry) :
    readUInt32LE (cenFixed e) 20 = e.header.compressedSize % 4294967296 := by
  have h : readUInt32LE (cenFixed e) 20
      = e.header.compressedSize % 256 + 256 * (e.header.compressedSize / 256 % 256) +
        65536 * (e.header.compressedSize / 65536 % 256) +
        16777216 * (e.header.compressedSize / 16777216 % 256) := rfl
  rw [h, u32_decomp]

theorem cen_read_usize (e : Entry) :
    readUInt32LE (cenFixed e) 24 = e.header.size % 4294967296 := by
  have h : readUInt32LE (cenFixed e) 24
      = e.header.size % 256 + 256 * (e.header.size / 256 % 256) +
        65536 * (e.header.size / 65536 % 256) +
        16777216 * (e.header.size / 16777216 % 256) := rfl
  rw [h, u32_decomp]

theorem cen_read_nameLen (e : Entry) :
    readUInt16LE (cenFixed e) 28 = e.rawEntryName.length % 65536 := by
  have h : readUInt16LE (cenFixed e) 28
      = e.rawEntryName.length % 256 + 256 * (e.rawEntryName.length / 256 % 256) := rfl
  rw [h, u16_decomp]

theorem cen_read_extraLen (e : Entry) :
    readUInt16LE (cenFixed e) 30 = e.extra.length % 65536 := by
  have h : readUInt16LE (cenFixed e) 30
      = e.extra.length % 256 + 256 * (e.extra.length / 256 % 256) := rfl
  rw [h, u16_decomp]

theorem cen_read_comLen (e : Entry) :
    readUInt16LE (cenFixed e) 32 = e.comment.length % 65536 := by
  have h : readUInt16LE (cenFixed e) 32
      = e.comment.length % 256 + 256 * (e.comment.length / 256 % 256) := rfl
  rw [h, u16_decomp]

theorem cen_read_disk (e : Entry) :
    readUInt16LE (cenFixed e) 34 = e.header.diskNumStart % 65536 := by
  have h : readUInt16LE (cenFixed e) 34
      = e.header.diskNumStart % 256 + 256 * (e.header.diskNumStart / 256 % 256) := rfl
  rw [h, u16_decomp]

theorem cen_read_inAttr (e : Entry) :
    readUInt16LE (cenFixed e) 36 = e.header.inAttr % 65536 := by
  have h : readUInt16LE (cenFixed e) 36
      = e.header.inAttr % 256 + 256 * (e.header.inAttr / 256 % 256) := rfl
  rw [h, u16_decomp]

theorem cen_read_attr (e : Entry) :
    readUInt32LE (cenFixed e) 38 = e.header.attr % 4294967296 := by
  have h : readUInt32LE (cenFixed e) 38
      = e.header.attr % 256 + 256 * (e.header.attr / 256 % 256) +
        65536 * (e.header.attr / 65536 % 256) +
        16777216 * (e.header.attr / 16777216 % 256) := rfl
  rw [h, u32_decomp]

theorem cen_read_offset (e : Entry) :
    readUInt32LE (cenFixed e) 42 = e.header.offset % 4294967296 := by
  have h : readUInt32LE (cenFixed e) 42
      = e.header.offset % 256 + 256 * (e.header.offset / 256 % 256) +
        65536 * (e.header.offset / 65536 % 256) +
        16777216 * (e.header.offset / 16777216 % 256) := rfl
  rw [h, u32_decomp]

theorem end_read_diskEntries (m : MainHeader) :
    readUInt16LE (endFixed m) 8 = m.diskEntries % 65536 := by
  have h : readUInt16LE (endFixed m) 8
      = m.diskEntries % 256 + 256 * (m.diskEntries / 256 % 256) := rfl
  rw [h, u16_decomp]

theorem end_read_totalEntries (m : MainHeader) :
    readUInt16LE (endFixed m) 10 = m.totalEntries % 65536 := by
  have h : readUInt16LE (endFixed m) 10
      = m.totalEntries % 256 + 256 * (m.totalEntries / 256 % 256) := rfl
  rw [h, u16_decomp]

theorem end_read_size (m : MainHeader) :
    readUInt32LE (endFixed m) 12 = m.size % 4294967296 := by
  have h : readUInt32LE (endFixed m) 12
      = m.size % 256 + 256 * (m.size / 256 % 256) +
        65536 * (m.size / 65536 % 256) + 16777216 * (m.size / 16777216 % 256) := rfl
  rw [h, u32_decomp]

theorem end_read_offset (m : MainHeader) :
    readUInt32LE (endFixed m) 16 = m.offset % 4294967296 := by
  have h : readUInt32LE (endFixed m) 16
      = m.offset % 256 + 256 * (m.offset / 256 % 256) +
        65536 * (m.offset / 65536 % 256) + 16777216 * (m.offset / 16777216 % 256) := rfl
  rw [h, u32_decomp]

theorem end_read_commentLength (m : MainHeader) :
    readUInt16LE (endFixed m) 20 = m.commentLength % 65536 := by
  have h : readUInt16LE (endFixed m) 20
      = m.commentLength % 256 + 256 * (m.commentLength / 256 % 256) := rfl
  rw [h, u16_decomp]

theorem loadMainHeader_endFixed (m : MainHeader) :
    loadMainHeader (endFixed m)
      = { diskEntries := m.diskEntries % 65536, totalEntries := m.totalEntries % 65536,
          size := m.size % 4294967296, offset := m.offset % 4294967296,
          commentLength := m.commentLength % 65536 } := by
  unfold loadMainHeader
  rw [end_read_diskEntries, end_read_totalEntries, end_read_size, end_read_offset,
    end_read_commentLength]

theorem sliceBuf_exact (A x r : Bytes) :
    sliceBuf (A ++ (x ++ r)) A.length (A.length + x.length) = x := by
  unfold sliceBuf
  rw [List.drop_left]
  have h : A.length + x.length - A.length = x.length := by omega
  rw [h, List.take_left]

theorem parseEntryAt_packed (pre tail : Bytes) (e : Entry) (hwf : EntryWF e)
    (hoff : e.header.offset < 4294967296)
    (hcd : e.compressedData = []) :
    parseEntryAt (pre ++ (packHeader e ++ tail)) pre.length = e := by
  obtain ⟨w1, w2, w3, w4, w5, w6, w7, w8, w9, w10, w11, w12, w13, w14⟩ := hwf
  have hh : sliceBuf (pre ++ (packHeader e ++ tail)) pre.length (pre.length + 46)
      = cenFixed e := by
    have hB1 : pre ++ (packHeader e ++ tail)
        = pre ++ (cenFixed e ++ (e.rawEntryName ++ (e.extra ++ (e.comment ++ tail)))) := by
      simp [packHeader, List.append_assoc]
    rw [hB1, ← cenFixed_length e]
    exact sliceBuf_exact _ _ _
  have hlen2 : (pre ++ cenFixed e).length = pre.length + 46 := by
    simp [cenFixed_length]
  have hnm : sliceBuf (pre ++ (packHeader e ++ tail)) (pre.length + 46)
      (pre.length + 46 + e.rawEntryName.length) = e.rawEntryName := by
    have hB2 : pre ++ (packHeader e ++ tail)
        = (pre ++ cenFixed e) ++ (e.rawEntryName ++ (e.extra ++ (e.comment ++ tail))) := by
      simp [packHeader, List.append_assoc]
    rw [hB2, ← hlen2]
    exact sliceBuf_exact _ _ _
  have hlen3 : ((pre ++ cenFixed e) ++ e.rawEntryName).length
      = pre.length + 46 + e.rawEntryName.length := by
    simp [cenFixed_length]
    omega
  have hex : sliceBuf (pre ++ (packHeader e ++ tail))
      (pre.length + 46 + e.rawEntryName.length)
      (pre.length + 46 + e.rawEntryName.length + e.extra.length) = e.extra := by
    have hB3 : pre ++ (packHeader e ++ tail)
        = ((pre ++ cenFixed e) ++ e.rawEntryName) ++ (e.extra ++ (e.comment ++ tail)) := by
      simp [packHeader, List.append_assoc]
    rw [hB3, ← hlen3]
    exact sliceBuf_exact _ _ _
  have hlen4 : (((pre ++ cenFixed e) ++ e.rawEntryName) ++ e.extra).length
      = pre.length + 46 + e.rawEntryName.length + e.extra.length := by
    simp [cenFixed_length]
    omega
  have hcm : sliceBuf (pre ++ (packHeader e ++ tail))
      (pre.length + 46 + e.rawEntryName.length + e.extra.length)
      (pre.length + 46 + e.rawEntryName.length + e.extra.length + e.comment.length)
      = e.comment := by
    have hB4 : pre ++ (packHeader e ++ tail)
        = (((pre ++ cenFixed e) ++ e.rawEntryName) ++ e.extra) ++ (e.comment ++ tail) := by
      simp [packHeader, List.append_assoc]
    rw [hB4, ← hlen4]
    exact sliceBuf_exact _ _ _
  simp only [parseEntryAt, hh, cen_read_made, cen_read_version, cen_read_flags,
    cen_read_method, cen_read_timeDate, cen_read_crc, cen_read_csize, cen_read_usize,
    cen_read_nameLen, cen_read_extraLen, cen_read_comLen, cen_read_disk,
    cen_read_inAttr, cen_read_attr, cen_read_offset,
    Nat.mod_eq_of_lt w1, Nat.mod_eq_of_lt w2, Nat.mod_eq_of_lt w3,
    Nat.mod_eq_of_lt w4, Nat.mod_eq_of_lt w5, Nat.mod_eq_of_lt w6,
    Nat.mod_eq_of_lt w7, Nat.mod_eq_of_lt w8, Nat.mod_eq_of_lt w9,
    Nat.mod_eq_of_lt w10, Nat.mod_eq_of_lt w11, Nat.mod_eq_of_lt w12,
    Nat.mod_eq_of_lt w13, Nat.mod_eq_of_lt w14, Nat.mod_eq_of_lt hoff, hnm]
  have hextra : (if e.extra.length ≠ 0 then
      sliceBuf (pre ++ (packHeader e ++ tail))
        (pre.length + 46 + e.rawEntryName.length)
        (pre.length + 46 + e.rawEntryName.length + e.extra.length)
      else []) = e.extra := by
    by_cases hx : e.extra.length ≠ 0
    · rw [if_pos hx]
      exact hex
    · rw [if_neg hx]
      push_neg at hx
      exact (List.eq_nil_of_length_eq_zero hx).symm
  have hcomment : (if e.comment.length ≠ 0 then
      sliceBuf (pre ++ (packHeader e ++ tail))
        (pre.length + 46 + e.rawEntryName.length + e.extra.length)
        (pre.length + 46 + e.rawEntryName.length + e.extra.length + e.comment.length)
      else []) = e.comment := by
    by_cases hc : e.comment.length ≠ 0
    · rw [if_pos hc]
      exact hcm
    · rw [if_neg hc]
      push_neg at hc
      exact (List.eq_nil_of_length_eq_zero hc).symm
  rw [hextra, hcomment, ← hcd]

theorem entryHeaderSizeAt_packed (pre tail : Bytes) (e : Entry) (hwf : EntryWF e) :
    entryHeaderSizeAt (pre ++ (packHeader e ++ tail)) pre.length
      = (packHeader e).length := by
  obtain ⟨w1, w2, w3, w4, w5, w6, w7, w8, w9, w10, w11, w12, w13, w14⟩ := hwf
  have hh : sliceBuf (pre ++ (packHeader e ++ tail)) pre.length (pre.length + 46)
      = cenFixed e := by
    have hB1 : pre ++ (packHeader e ++ tail)
        = pre ++ (cenFixed e ++ (e.rawEntryName ++ (e.extra ++ (e.comment ++ tail)))) := by
      simp [packHeader, List.append_assoc]
    rw [hB1, ← cenFixed_length e]
    exact sliceBuf_exact _ _ _
  simp only [entryHeaderSizeAt, hh, cen_read_nameLen, cen_read_extraLen, cen_read_comLen,
    Nat.mod_eq_of_lt w12, Nat.mod_eq_of_lt w13, Nat.mod_eq_of_lt w14, packHeader_length]

theorem parse_packed :
    ∀ (es : List Entry) (pre rest : Bytes),
      (∀ e ∈ es, EntryWF e ∧ e.header.offset < 4294967296 ∧ e.compressedData = []) →
      parseEntries (pre ++ ((es.map packHeader).flatten ++ rest)) es.length pre.length
        = es := by
  intro es
  induction es with
  | nil => intro pre rest _; rfl
  | cons e es ih =>
    intro pre rest hwf
    have he := hwf e (List.mem_cons_self e es)
    have hassoc : pre ++ (((e :: es).map packHeader).flatten ++ rest)
        = pre ++ (packHeader e ++ ((es.map packHeader).flatten ++ rest)) := by
      simp [List.append_assoc]
    show parseEntries (pre ++ (((e :: es).map packHeader).flatten ++ rest))
      (es.length + 1) pre.length = e :: es
    unfold parseEntries
    rw [hassoc]
    rw [parseEntryAt_packed pre _ e he.1 he.2.1 he.2.2,
      entryHeaderSizeAt_packed pre _ e he.1]
    have hassoc2 : pre ++ (packHeader e ++ ((es.map packHeader).flatten ++ rest))
        = (pre ++ packHeader e) ++ ((es.map packHeader).flatten ++ rest) := by
      simp [List.append_assoc]
    have hlen : pre.length + (packHeader e).length = (pre ++ packHeader e).length := by
      simp
    rw [hassoc2, hlen, ih (pre ++ packHeader e) rest
      (fun x hx => hwf x (List.mem_cons_of_mem e hx))]

theorem byteAt_append_right (A B : Bytes) (k : Nat) :
    byteAt (A ++ B) (A.length + k) = byteAt B k := by
  unfold byteAt
  rw [List.getD_append_right _ _ _ _ (Nat.le_add_right _ _)]
  congr 1
  omega

theorem findEnd_append_end (A : Bytes) (m : MainHeader) :
    findEnd (A ++ endFixed m) = some A.length := by
  have hlen : (A ++ endFixed m).length = A.length + 22 := by
    simp [endFixed_length]
  have hb0 : byteAt (A ++ endFixed m) A.length = 80 := by
    have h := byteAt_append_right A (endFixed m) 0
    simpa using h
  have hb1 : byteAt (A ++ endFixed m) (A.length + 1) = 75 :=
    (byteAt_append_right A (endFixed m) 1).trans rfl
  have hb2 : byteAt (A ++ endFixed m) (A.length + 2) = 5 :=
    (byteAt_append_right A (endFixed m) 2).trans rfl
  have hb3 : byteAt (A ++ endFixed m) (A.length + 3) = 6 :=
    (byteAt_append_right A (endFixed m) 3).trans rfl
  have hsig : sigCheck (A ++ endFixed m) A.length = true := by
    unfold sigCheck
    have hgd : (A ++ endFixed m).getD A.length 0 = 80 := hb0
    have hr : readUInt32LE (A ++ endFixed m) A.length = 101010256 := by
      unfold readUInt32LE
      rw [hb0, hb1, hb2, hb3]
    rw [hgd, hr]
    rfl
  have h22 : ¬ (A ++ endFixed m).length < 22 := by
    rw [hlen]; omega
  unfold findEnd
  rw [if_neg h22]
  show scanDown (A ++ endFixed m)
    ((A ++ endFixed m).length - 22 - ((A ++ endFixed m).length - 22 - 65535) + 1)
    ((A ++ endFixed m).length - 22) = some A.length
  have hi0 : (A ++ endFixed m).length - 22 = A.length := by
    rw [hlen]
    omega
  rw [hi0]
  unfold scanDown
  rw [hsig]
  simp

theorem copyInto_past (t : Bytes) (off : Nat) (src : Bytes) (h : t.length ≤ off) :
    copyInto t off src = t := by
  unfold copyInto
  have hn : min src.length (t.length - off) = 0 := by omega
  rw [hn]
  show t.take off ++ List.take 0 src ++ t.drop (off + 0) = t
  rw [List.take_of_length_le h, List.take_zero,
    List.drop_eq_nil_of_le (by omega : t.length ≤ off + 0)]
  simp

theorem build_fold_headers : ∀ (es : List Entry) (acc : BuildAcc),
    acc.entryHeaders = acc.entries.map packHeader →
    (es.foldl buildStep acc).entryHeaders
      = (es.foldl buildStep acc).entries.map packHeader := by
  intro es
  induction es with
  | nil => intro acc h; exact h
  | cons e es ih =>
    intro acc h
    rw [List.foldl_cons]
    apply ih
    simp only [buildStep]
    rw [List.map_append, h, List.map_singleton]

theorem build_fold_pred (P : Entry → Prop)
    (hP : ∀ (e : Entry) (n : Nat), P e →
      P { e with header := { e.header with offset := n } }) :
    ∀ (es : List Entry) (acc : BuildAcc),
      (∀ e ∈ es, P e) → (∀ e ∈ acc.entries, P e) →
      ∀ e ∈ (es.foldl buildStep acc).entries, P e := by
  intro es
  induction es with
  | nil => intro acc _ hacc e he; exact hacc e he
  | cons e0 es ih =>
    intro acc hes hacc e he
    rw [List.foldl_cons] at he
    refine ih (buildStep acc e0) (fun x hx => hes x (List.mem_cons_of_mem _ hx)) ?_ e he
    intro x hx
    have hx2 : x ∈ acc.entries ++
        [{ e0 with header := { e0.header with offset := acc.dindex } }] := hx
    rcases List.mem_append.mp hx2 with h1 | h1
    · exact hacc x h1
    · rw [List.mem_singleton.mp h1]
      exact hP e0 acc.dindex (hes e0 (List.mem_cons_self e0 es))

theorem build_fold_offsets : ∀ (es : List Entry) (acc : BuildAcc),
    (∀ e ∈ acc.entries, e.header.offset ≤ acc.dindex) →
    ∀ e ∈ (es.foldl buildStep acc).entries,
      e.header.offset ≤ (es.foldl buildStep acc).dindex := by
  intro es
  induction es with
  | nil => intro acc hacc e he; exact hacc e he
  | cons e0 es ih =>
    intro acc hacc e he
    rw [List.foldl_cons] at he ⊢
    refine ih (buildStep acc e0) ?_ e he
    intro x hx
    have hx2 : x ∈ acc.entries ++
        [{ e0 with header := { e0.header with offset := acc.dindex } }] := hx
    have hd : acc.dindex ≤ (buildStep acc e0).dindex := by
      show acc.dindex ≤ acc.dindex + _
      omega
    rcases List.mem_append.mp hx2 with h1 | h1
    · exact le_trans (hacc x h1) hd
    · rw [List.mem_singleton.mp h1]
      exact hd

theorem openZip_ok_elim {b : Bytes} {s : ContainerState} (h : openZip b = .ok s) :
    ∃ endOffset, findEnd b = some endOffset ∧
      s.mainHeader = loadMainHeader (sliceBuf b endOffset (endOffset + 22)) ∧
      s.entryList = parseEntries b s.mainHeader.diskEntries s.mainHeader.offset := by
  unfold openZip at h
  cases hf : findEnd b with
  | none => rw [hf] at h; cases h
  | some k =>
    rw [hf] at h
    simp only [Except.ok.injEq] at h
    refine ⟨k, rfl, ?_, ?_⟩
    · rw [← h]
    · rw [← h]

theorem openZip_entries_facts {b : Bytes} {s : ContainerState}
    (hv : ValidBytes b) (h : openZip b = .ok s) :
    (∀ e ∈ s.entryList, EntryWF e ∧ e.compressedData = []) ∧
    s.mainHeader.diskEntries = s.entryList.length ∧
    s.mainHeader.diskEntries < 65536 := by
  obtain ⟨k, hf, hmh, hel⟩ := openZip_ok_elim h
  refine ⟨?_, ?_, ?_⟩
  · intro e he
    rw [hel] at he
    obtain ⟨j, hj⟩ := parseEntries_mem b _ _ e he
    rw [hj]
    exact parseEntryAt_WF hv j
  · rw [hel, parseEntries_length]
  · rw [hmh]
    exact readUInt16LE_lt (ValidBytes_sliceBuf hv _ _) 8

/-! ### Claim theorems: C1 -/

/-- Claim C1 (counterexample): an archive whose end record declares a 30-byte
comment while only 10 trailing bytes (starting with a spurious end-record
signature) follow opens with one entry, but serializing and re-opening yields
zero entries: the rebuilt comment region is zero-padded to the declared
length, which moves the spurious signature into the scan window, and the
backward scan selects it as the right-most occurrence. -/
theorem openZip_roundtrip_counterexample :
    (entryMetas (openZip padBuf)).length = 1 ∧
    (entryMetas (openZip (roundOnce padBuf))).length = 0 := by
  constructor
  · rfl
  · rfl

/-- Claim C1 (amended): for every valid archive buffer whose end record
declares a zero-length comment, opening, serializing with
`compressToBuffer`, and re-opening yields the same multiset of entry
metadata (name, compressed size, uncompressed size, CRC-32) as opening
directly — the entries reappear sorted by name. The data section must fit
the 32-bit offset field. -/
theorem openZip_roundtrip (b : Bytes) (s : ContainerState)
    (hv : ValidBytes b)
    (hopen : openZip b = .ok s)
    (hcl : s.mainHeader.commentLength = 0)
    (hsz : (syncAcc s).dindex < 4294967296) :
    ∃ s2, openZip (compressToBuffer s).2 = .ok s2 ∧
      (s2.entryList.map metaOf).Perm (s.entryList.map metaOf) := by
  obtain ⟨hWFall, hdisk_len, hdisk_lt⟩ := openZip_entries_facts hv hopen
  have hinv : ((syncAcc s).dataBlock.map List.length).sum = (syncAcc s).dindex ∧
      ((syncAcc s).entryHeaders.map List.length).sum = (syncAcc s).size ∧
      (syncAcc s).totalSize = (syncAcc s).dindex + (syncAcc s).size :=
    build_fold_inv (sortedForSync s.entryList) accInit rfl rfl rfl
  have hchar := finalizeBuild_char (syncAcc s) s.mainHeader s.comment
    hinv.1 hinv.2.1 hinv.2.2
  have hdlenflat : (syncAcc s).dataBlock.flatten.length = (syncAcc s).dindex := by
    rw [List.length_flatten, hinv.1]
  have hheaders : (syncAcc s).entryHeaders = (syncAcc s).entries.map packHeader :=
    build_fold_headers (sortedForSync s.entryList) accInit rfl
  have hpred : ∀ e ∈ (syncAcc s).entries, EntryWF e ∧ e.compressedData = [] := by
    refine build_fold_pred (fun e => EntryWF e ∧ e.compressedData = []) ?_
      (sortedForSync s.entryList) accInit ?_ ?_
    · intro e n he
      exact ⟨he.1, he.2⟩
    · intro e he
      exact hWFall e ((sortedForSync_perm s.entryList).mem_iff.mp he)
    · intro e he
      cases he
  have hoffb : ∀ e ∈ (syncAcc s).entries, e.header.offset ≤ (syncAcc s).dindex := by
    refine build_fold_offsets (sortedForSync s.entryList) accInit ?_
    intro e he
    cases he
  have hmetas : (syncAcc s).entries.map metaOf
      = (sortedForSync s.entryList).map metaOf := by
    have hx := (build_fold_entries (sortedForSync s.entryList) accInit).1
    simpa [accInit] using hx
  have hcount : s.mainHeader.diskEntries = (syncAcc s).entries.length := by
    have h1 := (sortedForSync_perm s.entryList).length_eq
    have h2 : (syncAcc s).entries.length = (sortedForSync s.entryList).length := by
      have hx := (build_fold_entries (sortedForSync s.entryList) accInit).2.2
      simpa [accInit] using hx
    omega
  have hcl2 : (rebuiltHeader s).commentLength = 0 := hcl
  have hdk2 : (rebuiltHeader s).diskEntries = s.mainHeader.diskEntries := rfl
  have hof2 : (rebuiltHeader s).offset = (syncAcc s).dindex := rfl
  have hM : copyInto (endToBinary (rebuiltHeader s)) 22 s.comment
      = endFixed (rebuiltHeader s) := by
    have hEB : endToBinary (rebuiltHeader s) = endFixed (rebuiltHeader s) := by
      unfold endToBinary
      rw [hcl2]
      simp
    rw [hEB]
    exact copyInto_past _ _ _ (by rw [endFixed_length])
  have hout : (compressToBuffer s).2
      = ((syncAcc s).dataBlock.flatten ++ (syncAcc s).entryHeaders.flatten)
          ++ endFixed (rebuiltHeader s) := by
    have h0 : (compressToBuffer s).2
        = (finalizeBuild (syncAcc s) s.mainHeader s.comment).2 := rfl
    have h1 : copyInto (endToBinary (rebuiltHeader s)) 22 s.comment
        = copyInto (endToBinary { s.mainHeader with size := (syncAcc s).size, offset := (syncAcc s).dindex }) 22 s.comment := rfl
    rw [h0, hchar.2.1, ← h1, hM, List.append_assoc]
  have hslice : sliceBuf (((syncAcc s).dataBlock.flatten ++
        (syncAcc s).entryHeaders.flatten) ++ endFixed (rebuiltHeader s))
      ((syncAcc s).dataBlock.flatten ++ (syncAcc s).entryHeaders.flatten).length
      (((syncAcc s).dataBlock.flatten ++ (syncAcc s).entryHeaders.flatten).length + 22)
      = endFixed (rebuiltHeader s) := by
    rw [← endFixed_length (rebuiltHeader s)]
    rw [show ((syncAcc s).dataBlock.flatten ++ (syncAcc s).entryHeaders.flatten) ++
        endFixed (rebuiltHeader s)
        = ((syncAcc s).dataBlock.flatten ++ (syncAcc s).entryHeaders.flatten) ++
          (endFixed (rebuiltHeader s) ++ []) from by simp]
    exact sliceBuf_exact _ _ []
  have hparse : parseEntries (((syncAcc s).dataBlock.flatten ++
        (syncAcc s).entryHeaders.flatten) ++ endFixed (rebuiltHeader s))
      s.mainHeader.diskEntries (syncAcc s).dindex = (syncAcc s).entries := by
    have hbuf : ((syncAcc s).dataBlock.flatten ++
        (syncAcc s).entryHeaders.flatten) ++ endFixed (rebuiltHeader s)
        = (syncAcc s).dataBlock.flatten ++
            (((syncAcc s).entries.map packHeader).flatten ++
              endFixed (rebuiltHeader s)) := by
      rw [List.append_assoc, hheaders]
    rw [hcount, ← hdlenflat]
    rw [hbuf]
    exact parse_packed (syncAcc s).entries (syncAcc s).dataBlock.flatten _
      (fun e he => ⟨(hpred e he).1,
        lt_of_le_of_lt (hoffb e he) hsz,
        (hpred e he).2⟩)
  have hmh3 : loadMainHeader (endFixed (rebuiltHeader s))
      = { diskEntries := s.mainHeader.diskEntries, totalEntries := s.mainHeader.totalEntries % 65536, size := (syncAcc s).size % 4294967296, offset := (syncAcc s).dindex, commentLength := 0 } := by
    rw [loadMainHeader_endFixed]
    show ({ diskEntries := (rebuiltHeader s).diskEntries % 65536, totalEntries := (rebuiltHeader s).totalEntries % 65536, size := (rebuiltHeader s).size % 4294967296, offset := (rebuiltHeader s).offset % 4294967296, commentLength := (rebuiltHeader s).commentLength % 65536 } : MainHeader) = _
    rw [hdk2, hof2, hcl2, Nat.mod_eq_of_lt hdisk_lt, Nat.mod_eq_of_lt hsz]
    rfl
  refine ⟨{ entryList := (syncAcc s).entries, entryTable := tableOf (syncAcc s).entries, comment := [], mainHeader := { diskEntries := s.mainHeader.diskEntries, totalEntries := s.mainHeader.totalEntries % 65536, size := (syncAcc s).size % 4294967296, offset := (syncAcc s).dindex, commentLength := 0 } }, ?_, ?_⟩
  · rw [hout]
    unfold openZip
    rw [findEnd_append_end]
    simp only [hslice, hmh3, hparse]
    simp
  · show ((syncAcc s).entries.map metaOf).Perm (s.entryList.map metaOf)
    rw [hmetas]
    exact (sortedForSync_perm s.entryList).map metaOf

/-- Witness for the amended C1 on the concrete comment-free single-entry
archive. -/
theorem openZip_roundtrip_witness :
    ∃ s2, openZip (compressToBuffer witState).2 = .ok s2 ∧
      (s2.entryList.map metaOf).Perm (witState.entryList.map metaOf) :=
  openZip_roundtrip witBuf witState (by decide) (by rfl) (by rfl) (by decide)

end ZipSpec
